import Mathlib

/-!
A shallow embedding of `solve_aco` from `src/ACO.py` (lines 32-120), the Ant
Colony Optimization TSP solver, together with theorems settling the frozen
claims about it.

Modelling conventions:
* Machine floats become exact rationals `ℚ`; the exponents `alpha`, `beta`
  (Python ints `1` and `2` by default) become naturals, and
  `distance ** (-beta)` becomes `d ^ (-(beta : ℤ))`.
* The geodesic distance matrix built on line 52 from the external `geopy`
  oracle is taken as the input matrix `D` (the spec's Distance Oracle is an
  external pure collaborator); the location list enters only through `D` and
  the location count `n`.
* The ambient `random` generator is an explicit stream `g : ℕ → ℚ` of draws
  in `[0,1)` together with a counter threaded through the run: line 90's
  `random.random()` consumes one draw, and line 93's
  `random.choices(range n, weights)[0]` consumes one further draw and picks
  by bisection on cumulative weights, exactly as CPython's
  `random.choices` does.
* Fallible arithmetic is `Option`-valued.  When the distance between the
  current and an unvisited location is `0` (and `beta ≠ 0`), line 81 computes
  `0.0 ** (-beta) = inf` in numpy; when the score total on line 86 is `0`,
  line 87 divides by zero and every probability becomes NaN, after which the
  while loop of line 73 can never again add a fresh index and the program
  does not return.  Both situations leave the nominal (finite, real-valued)
  domain of the algorithm and are modelled as `none`.
* `best_distance = float('inf')` (line 59) is modelled as `none : Option ℚ`
  with the comparison `ltBest` (`d < +inf` is true for every finite `d`).
-/

namespace ACO

/-- An `n × n` real matrix, indexed by location position. -/
abbrev Mat : Type := ℕ → ℕ → ℚ

/-- The fixed inputs of one `solve_aco` run: the location count, the distance
matrix (built once on line 52), the chosen start index, the four numeric
parameters, and the stream of uniform draws in `[0,1)`. -/
structure Cfg where
  n : ℕ
  D : Mat
  start : ℕ
  alpha : ℕ
  beta : ℕ
  q0 : ℚ
  rho : ℚ
  g : ℕ → ℚ

/-- Line 80-82: `pheromone ** alpha * distance ** (-beta)` as an exact
rational, meaningful whenever the distance is nonzero (or `beta = 0`). -/
def scoreVal (cfg : Cfg) (P : Mat) (c j : ℕ) : ℚ :=
  P c j ^ cfg.alpha * cfg.D c j ^ (-(cfg.beta : ℤ))

/-- Lines 80-82 with their failure mode: `none` models the non-finite float
`inf` that `0.0 ** (-beta)` produces for a zero distance with `beta ≠ 0`. -/
def desirability (cfg : Cfg) (P : Mat) (c j : ℕ) : Option ℚ :=
  if cfg.D c j = 0 ∧ cfg.beta ≠ 0 then none else some (scoreVal cfg P c j)

/-- Lines 76-84: the scores list over all locations, `0` at visited ones. -/
def scores (cfg : Cfg) (P : Mat) (visited : Finset ℕ) (c : ℕ) : List ℚ :=
  (List.range cfg.n).map fun j => if j ∈ visited then 0 else scoreVal cfg P c j

/-- Python's `max(l)` on a nonempty list (`0` as junk value on `[]`). -/
def listMax : List ℚ → ℚ
  | [] => 0
  | x :: xs => xs.foldl max x

/-- Line 91: `probabilities.index(max(probabilities))` - the first index of
the maximal entry. -/
def idxOfMax (l : List ℚ) : ℕ := l.indexOf (listMax l)

/-- The bisection of CPython's `random.choices` on the cumulative weights,
capped at the last index: starting from the head, return the first position
whose cumulative weight strictly exceeds `x`; the final position is returned
without a test. -/
def weightedChoice : List ℚ → ℚ → ℕ
  | [], _ => 0
  | [_], _ => 0
  | w :: ws, x => if x < w then 0 else weightedChoice ws (x - w) + 1

/-- Line 93: `random.choices(range n, weights := ws)[0]` with `u` the uniform
draw consumed inside: it bisects for `u * total`. -/
def pyChoices (ws : List ℚ) (u : ℚ) : ℕ := weightedChoice ws (u * ws.sum)

/-- Sum of the first `i` entries (the cumulative weight before index `i`). -/
def psum (l : List ℚ) (i : ℕ) : ℚ := (l.take i).sum

/-- The state of one ant while the while loop of line 73 runs: the route so
far in reverse (head = `route[-1]`), the visited set, the distance
accumulated on line 98, and the position in the random stream. -/
structure AntState where
  rev : List ℕ
  visited : Finset ℕ
  dist : ℚ
  k : ℕ
deriving DecidableEq

/-- The guard that every score of the current step is finite (no unvisited
candidate at distance `0` with `beta ≠ 0`); when it fails the Python run
leaves the finite domain (see module comment). -/
def stepOK (cfg : Cfg) (P : Mat) (s : AntState) : Bool :=
  (List.range cfg.n).all fun j =>
    decide (j ∈ s.visited) || (desirability cfg P s.rev.headI j).isSome

/-- Line 87: the normalized probabilities of the current step. -/
def nprobs (cfg : Cfg) (P : Mat) (s : AntState) : List ℚ :=
  (scores cfg P s.visited s.rev.headI).map
    fun p => p / (scores cfg P s.visited s.rev.headI).sum

/-- Lines 96-98: append the chosen location, mark it visited, accumulate the
edge distance, and move the random counter to `k'`. -/
def push (cfg : Cfg) (s : AntState) (nxt k' : ℕ) : AntState :=
  ⟨nxt :: s.rev, insert nxt s.visited, s.dist + cfg.D s.rev.headI nxt, k'⟩

/-- One pass of the while-loop body, lines 74-98.  `none` models the run
leaving the finite domain: an infinite score (line 81) or a zero score total
(line 86), after which the probabilities are NaN and the loop never
completes (see module comment). -/
def antStep (cfg : Cfg) (P : Mat) (s : AntState) : Option AntState :=
  if stepOK cfg P s then
    if (scores cfg P s.visited s.rev.headI).sum = 0 then none
    else if cfg.g s.k < cfg.q0 then
      some (push cfg s (idxOfMax (nprobs cfg P s)) (s.k + 1))
    else
      some (push cfg s (pyChoices (nprobs cfg P s) (cfg.g (s.k + 1))) (s.k + 2))
  else none

/-- The while loop of line 73, fuelled (each regular step adds one fresh
location, so fuel `cfg.n` suffices); exhausted fuel with an unfinished route
models a non-terminating run and is a failure. -/
def antLoop (cfg : Cfg) (P : Mat) : ℕ → AntState → Option AntState
  | 0, s => if s.visited.card < cfg.n then none else some s
  | fuel + 1, s =>
    if s.visited.card < cfg.n then
      match antStep cfg P s with
      | none => none
      | some s' => antLoop cfg P fuel s'
    else some s

/-- Distance along the reversed partial route: `revDist D [c, b, a] =
D a b + D b c`. -/
def revDist (D : Mat) : List ℕ → ℚ
  | b :: a :: rest => revDist D (a :: rest) + D a b
  | _ => 0

/-- Total distance of a closed tour read off the distance matrix: the sum of
`D` over consecutive index pairs. -/
def tourDist (D : Mat) : List ℕ → ℚ
  | a :: b :: rest => D a b + tourDist D (b :: rest)
  | _ => 0

/-- Lines 68-102: one ant builds one complete route starting with the random
counter at `k`; returns the closed tour, its accumulated total distance
(line 101 adds the closing edge `route[-1] → route[0]`), and the new random
counter. -/
def constructRoute (cfg : Cfg) (P : Mat) (k : ℕ) : Option (List ℕ × ℚ × ℕ) :=
  match antLoop cfg P cfg.n ⟨[cfg.start], {cfg.start}, 0, k⟩ with
  | none => none
  | some s =>
    some (s.rev.reverse ++ [s.rev.reverse.headI],
          s.dist + cfg.D s.rev.headI s.rev.reverse.headI, s.k)

/-- Line 90's comparison against `best_distance`, where `none` stands for
`float('inf')` (line 59): every finite distance beats `+inf`. -/
def ltBest (d : ℚ) : Option ℚ → Bool
  | none => true
  | some b => decide (d < b)

/-- Order on tracked best distances, `none` being `+inf`. -/
def dLE : Option ℚ → Option ℚ → Prop
  | _, none => True
  | none, some _ => False
  | some a, some b => a ≤ b

/-- The mutable variables of one iteration of the loop on line 62:
`all_routes`, `all_distances`, the best pair, and the random counter. -/
structure IterAcc where
  routes : List (List ℕ)
  dists : List ℚ
  best : Option (List ℕ)
  bestDist : Option ℚ
  k : ℕ
deriving DecidableEq

/-- Lines 67-109: run the given number of ants, all reading the same
pheromone snapshot `P`; collect their routes and distances and update the
best pair whenever a new distance is strictly smaller (line 107). -/
def runAnts (cfg : Cfg) (P : Mat) : ℕ → IterAcc → Option IterAcc
  | 0, acc => some acc
  | m + 1, acc =>
    match constructRoute cfg P acc.k with
    | none => none
    | some (t, d, k') =>
      runAnts cfg P m
        ⟨acc.routes ++ [t], acc.dists ++ [d],
         if ltBest d acc.bestDist then some t else acc.best,
         if ltBest d acc.bestDist then some d else acc.bestDist, k'⟩

/-- Add `amt` to the single directed cell `(a, b)`. -/
def bump (P : Mat) (a b : ℕ) (amt : ℚ) : Mat :=
  fun i j => if i = a ∧ j = b then P i j + amt else P i j

/-- Lines 114-115: deposit `amt` on every directed edge of one route. -/
def depositRoute (amt : ℚ) : Mat → List ℕ → Mat
  | P, a :: b :: rest => depositRoute amt (bump P a b amt) (b :: rest)
  | P, _ => P

/-- Lines 113-115: deposit `1 / all_distances[i]` along `all_routes[i]`. -/
def depositAll : Mat → List (List ℕ) → List ℚ → Mat
  | P, t :: ts, d :: ds => depositAll (depositRoute (1 / d) P t) ts ds
  | P, _, _ => P

/-- Line 112: `pheromone_matrix *= (1 - rho)`. -/
def evaporate (cfg : Cfg) (P : Mat) : Mat :=
  fun i j => P i j * (1 - cfg.rho)

/-- The number of times the directed edge `(i, j)` is traversed by a route:
consecutive pairs, the closing pair included since the stored route already
ends with the start index. -/
def adjCount (t : List ℕ) (i j : ℕ) : ℕ := (t.zip t.tail).count (i, j)

/-- Total pheromone deposited on cell `(i, j)` by one iteration's routes. -/
def depositSum (ts : List (List ℕ)) (ds : List ℚ) (i j : ℕ) : ℚ :=
  ((ts.zip ds).map fun td => (adjCount td.1 i j : ℚ) * (1 / td.2)).sum

/-- The state carried from one iteration of line 62 to the next. -/
structure ColonyState where
  P : Mat
  best : Option (List ℕ)
  bestDist : Option ℚ
  k : ℕ

/-- Lines 63-115: one full iteration - run all ants against the frozen
snapshot `st.P`, and only then evaporate and deposit. -/
def runIteration (cfg : Cfg) (nAnts : ℕ) (st : ColonyState) : Option ColonyState :=
  match runAnts cfg st.P nAnts ⟨[], [], st.best, st.bestDist, st.k⟩ with
  | none => none
  | some acc =>
    some ⟨depositAll (evaporate cfg st.P) acc.routes acc.dists,
          acc.best, acc.bestDist, acc.k⟩

/-- The iteration loop of line 62. -/
def runColony (cfg : Cfg) (nAnts : ℕ) : ℕ → ColonyState → Option ColonyState
  | 0, st => some st
  | m + 1, st =>
    match runIteration cfg nAnts st with
    | none => none
    | some st' => runColony cfg nAnts m st'

/-- Lines 55-59: uniform pheromone `1.0`, no best route, `best_distance =
inf`, random counter at the origin. -/
def initState : ColonyState := ⟨fun _ _ => 1, none, none, 0⟩

/-- Lines 32-120: the outer `none` models a run that leaves the finite
domain and never returns (see module comment); the inner option is the
returned `best_route`, which is Python's `None` when no ant ever ran. -/
def solveACO (cfg : Cfg) (nAnts nIters : ℕ) : Option (Option (List ℕ)) :=
  (runColony cfg nAnts nIters initState).map fun st => st.best

/-- The pheromone entry at `(i, j)` after `m` iterations, when the run is
still alive. -/
def colP (cfg : Cfg) (nAnts m i j : ℕ) : Option ℚ :=
  (runColony cfg nAnts m initState).map fun st => st.P i j

/-- The spec's Tour invariant: length `N+1`, starts and ends at the start
index, and the first `N` entries enumerate `{0..N-1}` without repetition. -/
def ValidTour (cfg : Cfg) (t : List ℕ) : Prop :=
  t.length = cfg.n + 1 ∧ t.headI = cfg.start ∧ t.getLast? = some cfg.start ∧
    (t.take cfg.n).Nodup ∧ (t.take cfg.n).toFinset = Finset.range cfg.n

/-- Invariant of one ant's state during route construction. -/
structure AntInv (cfg : Cfg) (s : AntState) : Prop where
  ne : s.rev ≠ []
  nodup : s.rev.Nodup
  vis : s.visited = s.rev.toFinset
  bounded : ∀ j ∈ s.rev, j < cfg.n
  last : s.rev.getLast? = some cfg.start
  dist_eq : s.dist = revDist cfg.D s.rev

/-- Validity of the solver inputs, as the spec states them: at least two
locations, start index in range, positive distance between distinct
locations, and uniform draws in `[0,1)`. -/
def Valid (cfg : Cfg) : Prop :=
  2 ≤ cfg.n ∧ cfg.start < cfg.n ∧
    (∀ i j, i < cfg.n → j < cfg.n → i ≠ j → 0 < cfg.D i j) ∧
    (∀ k, 0 ≤ cfg.g k ∧ cfg.g k < 1)

/-- Coupling of the two best-solution variables of lines 58-59: the distance
is `+inf` exactly while no route is stored, and any stored finite distance
comes with a stored valid tour. -/
def BestInv (cfg : Cfg) (best : Option (List ℕ)) (bd : Option ℚ) : Prop :=
  (bd = none → best = none) ∧
    ∀ b, bd = some b → ∃ t, best = some t ∧ ValidTour cfg t

/-- Invariant of the per-iteration state: strictly positive pheromone and
coupled best-solution variables. -/
def ColInv (cfg : Cfg) (st : ColonyState) : Prop :=
  (∀ i j, 0 < st.P i j) ∧ BestInv cfg st.best st.bestDist

/-- The unique closed tour of a two-location input. -/
def twoTour (cfg : Cfg) : List ℕ := [cfg.start, 1 - cfg.start, cfg.start]

/-- The accumulated distance of the unique two-location tour: the outgoing
edge plus the closing edge. -/
def twoDist (cfg : Cfg) : ℚ :=
  cfg.D cfg.start (1 - cfg.start) + cfg.D (1 - cfg.start) cfg.start

/-- Invariant of a two-location run: nonnegative pheromone everywhere,
positive pheromone on the outgoing start edge, and the best pair either
still initial or equal to the unique tour with its distance. -/
def TwoInv (cfg : Cfg) (st : ColonyState) : Prop :=
  (∀ i j, 0 ≤ st.P i j) ∧ 0 < st.P cfg.start (1 - cfg.start) ∧
    ((st.best = none ∧ st.bestDist = none) ∨
      (st.best = some (twoTour cfg) ∧ st.bestDist = some (twoDist cfg)))

/-- A two-location configuration used to witness several theorems:
unit distances, start at `0`, default `alpha`, `beta`, `rho`, `q0`, and a
random stream that is constantly `0`. -/
def wCfg : Cfg :=
  { n := 2, D := fun i j => if i = j then 0 else 1, start := 0, alpha := 1
    beta := 2, q0 := 9 / 10, rho := 1 / 2, g := fun _ => 0 }

/-- The accumulator produced by the single ant of the witness run. -/
def wAcc : IterAcc := ⟨[[0, 1, 0]], [2], some [0, 1, 0], some 2, 1⟩

/-- The colony state after the first witness iteration. -/
def wSt1 : ColonyState :=
  ⟨depositAll (evaporate wCfg fun _ _ => 1) [[0, 1, 0]] [2],
   some [0, 1, 0], some 2, 1⟩

/-- The random stream of the degenerate four-location run: draw 7 steers the
second ant of iteration one to location 2, draw 15 steers the first ant of
iteration two to location 3; all other draws are 0. -/
def cexG : ℕ → ℚ := fun k => if k = 7 then 1 / 2 else if k = 15 then 3 / 4 else 0

/-- A four-location input with unit distances between distinct locations,
full evaporation `rho = 1` and pure exploration `q0 = 0` - both inside the
parameter ranges the spec documents.  With `cexG`, iteration one constructs
the tours `[0,1,2,3,0]` and `[0,2,1,3,0]`; full evaporation then leaves
pheromone only on their edges, and in iteration two the first ant reaches
location 3 with only location 2 unvisited while `pheromone[3][2] = 0`, so
every desirability score is zero. -/
def cexCfg : Cfg :=
  { n := 4, D := fun i j => if i = j then 0 else 1, start := 0, alpha := 1
    beta := 2, q0 := 0, rho := 1, g := cexG }

/-- The colony state after iteration one of the degenerate run. -/
def cexSt1 : ColonyState :=
  ⟨depositAll (evaporate cexCfg fun _ _ => 1) [[0, 1, 2, 3, 0], [0, 2, 1, 3, 0]]
    [4, 4], some [0, 1, 2, 3, 0], some 4, 12⟩

/-- A two-location input whose two distinct locations have identical
coordinates, so their distance is `0` (a duplicated address after
geocoding). -/
def zCfg : Cfg :=
  { n := 2, D := fun _ _ => 0, start := 0, alpha := 1, beta := 2
    q0 := 9 / 10, rho := 1 / 2, g := fun _ => 0 }

/-- A two-location configuration with asymmetric-looking but equal distances
and start index 1, with full evaporation `rho = 1`; used to witness the
two-location theorem across the whole spec range of `rho`. -/
def wCfg8 : Cfg :=
  { n := 2, D := fun i j => if i = j then 0 else 3, start := 1, alpha := 1
    beta := 2, q0 := 9 / 10, rho := 1, g := fun _ => 0 }

/-! ### Unfolding lemmas for the loops -/

theorem antLoop_cont {cfg : Cfg} {P : Mat} {f : ℕ} {s s' : AntState}
    (h : s.visited.card < cfg.n) (hs : antStep cfg P s = some s') :
    antLoop cfg P (f + 1) s = antLoop cfg P f s' := by
  simp only [antLoop, if_pos h, hs]

theorem antLoop_fail {cfg : Cfg} {P : Mat} {f : ℕ} {s : AntState}
    (h : s.visited.card < cfg.n) (hs : antStep cfg P s = none) :
    antLoop cfg P (f + 1) s = none := by
  simp only [antLoop, if_pos h, hs]

theorem antLoop_done {cfg : Cfg} {P : Mat} {f : ℕ} {s : AntState}
    (h : ¬ s.visited.card < cfg.n) :
    antLoop cfg P (f + 1) s = some s := by
  simp only [antLoop, if_neg h]

theorem constructRoute_eq_some {cfg : Cfg} {P : Mat} {k : ℕ} {s : AntState}
    (h : antLoop cfg P cfg.n ⟨[cfg.start], {cfg.start}, 0, k⟩ = some s) :
    constructRoute cfg P k =
      some (s.rev.reverse ++ [s.rev.reverse.headI],
            s.dist + cfg.D s.rev.headI s.rev.reverse.headI, s.k) := by
  simp only [constructRoute, h]

theorem constructRoute_eq_none {cfg : Cfg} {P : Mat} {k : ℕ}
    (h : antLoop cfg P cfg.n ⟨[cfg.start], {cfg.start}, 0, k⟩ = none) :
    constructRoute cfg P k = none := by
  simp only [constructRoute, h]

theorem runAnts_cont {cfg : Cfg} {P : Mat} {m : ℕ} {acc : IterAcc}
    {t : List ℕ} {d : ℚ} {k' : ℕ}
    (h : constructRoute cfg P acc.k = some (t, d, k')) :
    runAnts cfg P (m + 1) acc =
      runAnts cfg P m
        ⟨acc.routes ++ [t], acc.dists ++ [d],
         if ltBest d acc.bestDist then some t else acc.best,
         if ltBest d acc.bestDist then some d else acc.bestDist, k'⟩ := by
  simp only [runAnts, h]

theorem runAnts_fail {cfg : Cfg} {P : Mat} {m : ℕ} {acc : IterAcc}
    (h : constructRoute cfg P acc.k = none) :
    runAnts cfg P (m + 1) acc = none := by
  simp only [runAnts, h]

theorem runIteration_eq_some {cfg : Cfg} {nA : ℕ} {st : ColonyState} {acc : IterAcc}
    (h : runAnts cfg st.P nA ⟨[], [], st.best, st.bestDist, st.k⟩ = some acc) :
    runIteration cfg nA st =
      some ⟨depositAll (evaporate cfg st.P) acc.routes acc.dists,
            acc.best, acc.bestDist, acc.k⟩ := by
  simp only [runIteration, h]

theorem runIteration_eq_none {cfg : Cfg} {nA : ℕ} {st : ColonyState}
    (h : runAnts cfg st.P nA ⟨[], [], st.best, st.bestDist, st.k⟩ = none) :
    runIteration cfg nA st = none := by
  simp only [runIteration, h]

theorem runColony_succ_some {cfg : Cfg} {nA m : ℕ} {st st' : ColonyState}
    (h : runIteration cfg nA st = some st') :
    runColony cfg nA (m + 1) st = runColony cfg nA m st' := by
  simp only [runColony, h]

theorem runColony_succ_none {cfg : Cfg} {nA m : ℕ} {st : ColonyState}
    (h : runIteration cfg nA st = none) :
    runColony cfg nA (m + 1) st = none := by
  simp only [runColony, h]

/-! ### Sums, maxima and sampling over lists of rationals -/

theorem sum_pos_of_mem {l : List ℚ} (h0 : ∀ x ∈ l, 0 ≤ x) {x : ℚ}
    (hx : x ∈ l) (hp : 0 < x) : 0 < l.sum := by
  induction l with
  | nil => simp at hx
  | cons y ys ih =>
    rw [List.sum_cons]
    rcases List.mem_cons.1 hx with h | h
    · subst h
      have : 0 ≤ ys.sum := List.sum_nonneg fun z hz => h0 z (List.mem_cons_of_mem _ hz)
      linarith
    · have hy : 0 ≤ y := h0 y (List.mem_cons_self _ _)
      have := ih (fun z hz => h0 z (List.mem_cons_of_mem _ hz)) h
      linarith

theorem exists_pos_of_sum_pos {l : List ℚ} (h : 0 < l.sum) : ∃ x ∈ l, 0 < x := by
  induction l with
  | nil => simp at h
  | cons x xs ih =>
    by_cases hx : 0 < x
    · exact ⟨x, List.mem_cons_self _ _, hx⟩
    · rw [List.sum_cons] at h
      push_neg at hx
      obtain ⟨y, hy, hy0⟩ := ih (by linarith)
      exact ⟨y, List.mem_cons_of_mem _ hy, hy0⟩

theorem sum_map_div (l : List ℚ) (T : ℚ) :
    (l.map fun p => p / T).sum = l.sum / T := by
  induction l with
  | nil => simp
  | cons x xs ih => simp [List.sum_cons, ih, add_div]

theorem le_foldl_max (xs : List ℚ) :
    ∀ a : ℚ, a ≤ xs.foldl max a ∧ ∀ x ∈ xs, x ≤ xs.foldl max a := by
  induction xs with
  | nil => intro a; exact ⟨le_refl a, by simp⟩
  | cons y ys ih =>
    intro a
    refine ⟨le_trans (le_max_left a y) (ih (max a y)).1, ?_⟩
    intro x hx
    rcases List.mem_cons.1 hx with h | h
    · subst h; exact le_trans (le_max_right a x) (ih (max a x)).1
    · exact (ih (max a y)).2 x h

theorem foldl_max_mem (xs : List ℚ) :
    ∀ a : ℚ, xs.foldl max a = a ∨ xs.foldl max a ∈ xs := by
  induction xs with
  | nil => intro a; exact Or.inl rfl
  | cons y ys ih =>
    intro a
    rcases ih (max a y) with h | h
    · rw [List.foldl_cons, h]
      rcases max_cases a y with ⟨hm, _⟩ | ⟨hm, _⟩
      · exact Or.inl hm
      · exact Or.inr (by rw [hm]; exact List.mem_cons_self _ _)
    · exact Or.inr (List.mem_cons_of_mem _ (by rw [List.foldl_cons]; exact h))

theorem listMax_mem {l : List ℚ} (h : l ≠ []) : listMax l ∈ l := by
  cases l with
  | nil => exact absurd rfl h
  | cons x xs =>
    rcases foldl_max_mem xs x with h' | h'
    · rw [listMax, h']; exact List.mem_cons_self _ _
    · rw [listMax]; exact List.mem_cons_of_mem _ h'

theorem le_listMax {l : List ℚ} {x : ℚ} (h : x ∈ l) : x ≤ listMax l := by
  cases l with
  | nil => simp at h
  | cons y ys =>
    rcases List.mem_cons.1 h with h' | h'
    · subst h'; exact (le_foldl_max ys x).1
    · exact (le_foldl_max ys y).2 x h'

theorem getD_mem_of_lt {l : List ℚ} {j : ℕ} (hj : j < l.length) :
    l.getD j 0 ∈ l := by
  induction l generalizing j with
  | nil => simp at hj
  | cons x xs ih =>
    cases j with
    | zero => simp
    | succ j =>
      rw [List.getD_cons_succ]
      exact List.mem_cons_of_mem _ (ih (by simpa using hj))

theorem getD_indexOf {l : List ℚ} {a : ℚ} (h : a ∈ l) :
    l.getD (l.indexOf a) 0 = a := by
  induction l with
  | nil => simp at h
  | cons x xs ih =>
    by_cases hx : x = a
    · subst hx; simp [List.indexOf_cons_self]
    · have hmem : a ∈ xs := by
        rcases List.mem_cons.1 h with h' | h'
        · exact absurd h'.symm hx
        · exact h'
      rw [List.indexOf_cons_ne _ (by simpa using hx), List.getD_cons_succ]
      exact ih hmem

theorem indexOf_lt_of_mem {l : List ℚ} {a : ℚ} (h : a ∈ l) :
    l.indexOf a < l.length := List.indexOf_lt_length.2 h

theorem indexOf_min {l : List ℚ} {a : ℚ} :
    ∀ {j : ℕ}, j < l.length → l.getD j 0 = a → l.indexOf a ≤ j := by
  induction l with
  | nil => intro j hj _; simp at hj
  | cons x xs ih =>
    intro j hj hget
    cases j with
    | zero =>
      rw [List.getD_cons_zero] at hget
      subst hget
      simp [List.indexOf_cons_self]
    | succ j =>
      by_cases hx : x = a
      · subst hx; simp [List.indexOf_cons_self]
      · rw [List.indexOf_cons_ne _ (by simpa using hx)]
        have := ih (j := j) (by simpa using hj) (by simpa using hget)
        omega

theorem idxOfMax_lt {l : List ℚ} (h : l ≠ []) : idxOfMax l < l.length :=
  indexOf_lt_of_mem (listMax_mem h)

theorem getD_idxOfMax {l : List ℚ} (h : l ≠ []) :
    l.getD (idxOfMax l) 0 = listMax l := getD_indexOf (listMax_mem h)

theorem getD_le_idxOfMax {l : List ℚ} (h : l ≠ []) {j : ℕ} (hj : j < l.length) :
    l.getD j 0 ≤ l.getD (idxOfMax l) 0 := by
  rw [getD_idxOfMax h]
  exact le_listMax (getD_mem_of_lt hj)

theorem idxOfMax_first {l : List ℚ} {j : ℕ} (hj : j < idxOfMax l) :
    l.getD j 0 ≠ listMax l := by
  intro hEq
  have hne : l ≠ [] := by
    rintro rfl
    simp [idxOfMax, listMax, List.indexOf_nil] at hj
  have hjlen : j < l.length := lt_trans hj (idxOfMax_lt hne)
  have hle : l.indexOf (listMax l) ≤ j := indexOf_min hjlen hEq
  rw [idxOfMax] at hj
  omega

theorem psum_cons_succ (w : ℚ) (ws : List ℚ) (i : ℕ) :
    psum (w :: ws) (i + 1) = w + psum ws i := by
  simp [psum, List.take_succ_cons]

theorem weightedChoice_spec :
    ∀ (ws : List ℚ) (x : ℚ), (∀ w ∈ ws, 0 ≤ w) → 0 ≤ x → x < ws.sum →
      weightedChoice ws x < ws.length ∧ 0 < ws.getD (weightedChoice ws x) 0 ∧
        psum ws (weightedChoice ws x) ≤ x ∧ x < psum ws (weightedChoice ws x + 1) := by
  intro ws
  induction ws with
  | nil => intro x _ hx0 hxs; simp at hxs; exact absurd (lt_of_le_of_lt hx0 hxs) (lt_irrefl 0)
  | cons w ws ih =>
    intro x hw hx0 hxs
    cases ws with
    | nil =>
      have hxw : x < w := by simpa using hxs
      refine ⟨by simp [weightedChoice], ?_, ?_, ?_⟩
      · simpa [weightedChoice] using lt_of_le_of_lt hx0 hxw
      · simp [weightedChoice, psum]
        exact hx0
      · simpa [weightedChoice, psum_cons_succ, psum] using hxw
    | cons v vs =>
      rw [show weightedChoice (w :: v :: vs) x
            = if x < w then 0 else weightedChoice (v :: vs) (x - w) + 1 from rfl]
      by_cases hxw : x < w
      · rw [if_pos hxw]
        refine ⟨by simp, ?_, ?_, ?_⟩
        · simpa using lt_of_le_of_lt hx0 hxw
        · simp [psum]; exact hx0
        · simpa [psum_cons_succ, psum] using hxw
      · rw [if_neg hxw]
        push_neg at hxw
        have hsub0 : 0 ≤ x - w := by linarith
        have hsubs : x - w < (v :: vs).sum := by
          rw [List.sum_cons] at hxs; linarith
        obtain ⟨h1, h2, h3, h4⟩ :=
          ih (x - w) (fun z hz => hw z (List.mem_cons_of_mem _ hz)) hsub0 hsubs
        refine ⟨by simpa using h1, by simpa using h2, ?_, ?_⟩
        · rw [psum_cons_succ]; linarith
        · rw [psum_cons_succ]; linarith

/-! ### Facts about the per-step score and probability lists -/

theorem getD_map_range (f : ℕ → ℚ) {n j : ℕ} (hj : j < n) :
    ((List.range n).map f).getD j 0 = f j := by
  rw [List.getD_eq_getElem?_getD, List.getElem?_map, List.getElem?_range hj,
    Option.map_some', Option.getD_some]

theorem getD_map_div {l : List ℚ} {T : ℚ} {j : ℕ} (hj : j < l.length) :
    (l.map fun p => p / T).getD j 0 = l.getD j 0 / T := by
  induction l generalizing j with
  | nil => simp at hj
  | cons x xs ih =>
    cases j with
    | zero => simp
    | succ j => simpa using ih (by simpa using hj)

theorem scores_length (cfg : Cfg) (P : Mat) (visited : Finset ℕ) (c : ℕ) :
    (scores cfg P visited c).length = cfg.n := by
  rw [scores, List.length_map, List.length_range]

theorem scores_getD {cfg : Cfg} {P : Mat} {visited : Finset ℕ} {c j : ℕ}
    (hj : j < cfg.n) :
    (scores cfg P visited c).getD j 0 =
      if j ∈ visited then 0 else scoreVal cfg P c j := by
  rw [scores, getD_map_range _ hj]

theorem headI_mem {l : List ℕ} (h : l ≠ []) : l.headI ∈ l := by
  cases l with
  | nil => exact absurd rfl h
  | cons a l => exact List.mem_cons_self _ _

theorem AntInv.current_lt {cfg : Cfg} {s : AntState} (h : AntInv cfg s) :
    s.rev.headI < cfg.n :=
  h.bounded _ (headI_mem h.ne)

theorem AntInv.current_mem {cfg : Cfg} {s : AntState} (h : AntInv cfg s) :
    s.rev.headI ∈ s.visited := by
  rw [h.vis, List.mem_toFinset]; exact headI_mem h.ne

theorem AntInv.visited_subset {cfg : Cfg} {s : AntState} (h : AntInv cfg s) :
    s.visited ⊆ Finset.range cfg.n := by
  intro j hj
  rw [h.vis, List.mem_toFinset] at hj
  exact Finset.mem_range.2 (h.bounded j hj)

theorem AntInv.card_le {cfg : Cfg} {s : AntState} (h : AntInv cfg s) :
    s.visited.card ≤ cfg.n := by
  have := Finset.card_le_card h.visited_subset
  simpa [Finset.card_range] using this

theorem scoreVal_pos {cfg : Cfg} {P : Mat} {c j : ℕ}
    (hP : 0 < P c j) (hD : 0 < cfg.D c j) : 0 < scoreVal cfg P c j :=
  mul_pos (pow_pos hP _) (zpow_pos hD _)

theorem scoreVal_nonneg {cfg : Cfg} {P : Mat} {c j : ℕ}
    (hP : 0 ≤ P c j) (hD : 0 ≤ cfg.D c j) : 0 ≤ scoreVal cfg P c j :=
  mul_nonneg (pow_nonneg hP _) (zpow_nonneg hD _)

theorem current_ne_unvisited {cfg : Cfg} {s : AntState} (hInv : AntInv cfg s)
    {j : ℕ} (hjv : j ∉ s.visited) : s.rev.headI ≠ j :=
  fun h => hjv (h ▸ hInv.current_mem)

theorem scores_nonneg {cfg : Cfg} {P : Mat} {s : AntState}
    (hv : Valid cfg) (hInv : AntInv cfg s) (hP : ∀ i j, 0 ≤ P i j) :
    ∀ x ∈ scores cfg P s.visited s.rev.headI, 0 ≤ x := by
  intro x hx
  rw [scores, List.mem_map] at hx
  obtain ⟨j, hj, rfl⟩ := hx
  rw [List.mem_range] at hj
  by_cases hjv : j ∈ s.visited
  · rw [if_pos hjv]
  · rw [if_neg hjv]
    have hD := hv.2.2.1 _ _ hInv.current_lt hj (current_ne_unvisited hInv hjv)
    exact scoreVal_nonneg (hP _ _) (le_of_lt hD)

theorem scores_sum_pos {cfg : Cfg} {P : Mat} {s : AntState}
    (hv : Valid cfg) (hInv : AntInv cfg s) (hP : ∀ i j, 0 < P i j)
    (hcard : s.visited.card < cfg.n) :
    0 < (scores cfg P s.visited s.rev.headI).sum := by
  obtain ⟨j0, hj0n, hj0v⟩ : ∃ j, j < cfg.n ∧ j ∉ s.visited := by
    by_contra hcon
    push_neg at hcon
    have hsub : Finset.range cfg.n ⊆ s.visited := fun j hj =>
      hcon j (Finset.mem_range.1 hj)
    have := Finset.card_le_card hsub
    rw [Finset.card_range] at this
    omega
  have hmem : (scores cfg P s.visited s.rev.headI).getD j0 0
      ∈ scores cfg P s.visited s.rev.headI :=
    getD_mem_of_lt (by rw [scores_length]; exact hj0n)
  have hval : (scores cfg P s.visited s.rev.headI).getD j0 0
      = scoreVal cfg P s.rev.headI j0 := by
    rw [scores_getD hj0n, if_neg hj0v]
  have hpos : 0 < scoreVal cfg P s.rev.headI j0 :=
    scoreVal_pos (hP _ _)
      (hv.2.2.1 _ _ hInv.current_lt hj0n (current_ne_unvisited hInv hj0v))
  exact sum_pos_of_mem
    (scores_nonneg hv hInv fun i j => le_of_lt (hP i j)) hmem (hval ▸ hpos)

theorem stepOK_true {cfg : Cfg} {P : Mat} {s : AntState}
    (hv : Valid cfg) (hInv : AntInv cfg s) : stepOK cfg P s = true := by
  rw [stepOK, List.all_eq_true]
  intro j hj
  rw [List.mem_range] at hj
  by_cases hjv : j ∈ s.visited
  · simp [hjv]
  · rw [Bool.or_eq_true]
    right
    rw [desirability, if_neg]
    · rfl
    · rintro ⟨hD0, _⟩
      exact absurd hD0
        (ne_of_gt (hv.2.2.1 _ _ hInv.current_lt hj (current_ne_unvisited hInv hjv)))

theorem nprobs_length (cfg : Cfg) (P : Mat) (s : AntState) :
    (nprobs cfg P s).length = cfg.n := by
  rw [nprobs, List.length_map, scores_length]

theorem nprobs_ne_nil {cfg : Cfg} {P : Mat} {s : AntState} (hn : 0 < cfg.n) :
    nprobs cfg P s ≠ [] := by
  intro h
  have := nprobs_length cfg P s
  rw [h] at this
  simp at this
  omega

theorem nprobs_getD {cfg : Cfg} {P : Mat} {s : AntState} {j : ℕ} (hj : j < cfg.n) :
    (nprobs cfg P s).getD j 0 =
      (scores cfg P s.visited s.rev.headI).getD j 0 /
        (scores cfg P s.visited s.rev.headI).sum := by
  rw [nprobs, getD_map_div (by rw [scores_length]; exact hj)]

theorem nprobs_sum {cfg : Cfg} {P : Mat} {s : AntState}
    (hT : (scores cfg P s.visited s.rev.headI).sum ≠ 0) :
    (nprobs cfg P s).sum = 1 := by
  rw [nprobs, sum_map_div, div_self hT]

theorem nprobs_nonneg {cfg : Cfg} {P : Mat} {s : AntState}
    (hv : Valid cfg) (hInv : AntInv cfg s) (hP : ∀ i j, 0 ≤ P i j)
    (hT : 0 < (scores cfg P s.visited s.rev.headI).sum) :
    ∀ x ∈ nprobs cfg P s, 0 ≤ x := by
  intro x hx
  rw [nprobs, List.mem_map] at hx
  obtain ⟨p, hp, rfl⟩ := hx
  exact div_nonneg (scores_nonneg hv hInv hP p hp) (le_of_lt hT)

theorem nprobs_pos_unvisited {cfg : Cfg} {P : Mat} {s : AntState} {j : ℕ}
    (hj : j < cfg.n) (hpos : 0 < (nprobs cfg P s).getD j 0) : j ∉ s.visited := by
  intro hjv
  rw [nprobs_getD hj, scores_getD hj, if_pos hjv, zero_div] at hpos
  exact lt_irrefl 0 hpos

theorem nprobs_exists_pos {cfg : Cfg} {P : Mat} {s : AntState}
    (hT : (scores cfg P s.visited s.rev.headI).sum ≠ 0) :
    ∃ x ∈ nprobs cfg P s, 0 < x := by
  apply exists_pos_of_sum_pos
  rw [nprobs_sum hT]
  norm_num

theorem exploit_spec {cfg : Cfg} {P : Mat} {s : AntState}
    (hv : Valid cfg) (hT : (scores cfg P s.visited s.rev.headI).sum ≠ 0) :
    idxOfMax (nprobs cfg P s) < cfg.n ∧ idxOfMax (nprobs cfg P s) ∉ s.visited := by
  have hn : 0 < cfg.n := by have := hv.1; omega
  have hne : nprobs cfg P s ≠ [] := nprobs_ne_nil hn
  have hlt : idxOfMax (nprobs cfg P s) < cfg.n := by
    have := idxOfMax_lt hne
    rwa [nprobs_length] at this
  refine ⟨hlt, ?_⟩
  obtain ⟨x, hx, hx0⟩ := nprobs_exists_pos hT
  have hmax : 0 < (nprobs cfg P s).getD (idxOfMax (nprobs cfg P s)) 0 := by
    rw [getD_idxOfMax hne]
    exact lt_of_lt_of_le hx0 (le_listMax hx)
  exact nprobs_pos_unvisited hlt hmax

theorem explore_spec {cfg : Cfg} {P : Mat} {s : AntState}
    (hv : Valid cfg) (hInv : AntInv cfg s) (hP : ∀ i j, 0 ≤ P i j)
    (hT : 0 < (scores cfg P s.visited s.rev.headI).sum)
    {u : ℚ} (hu0 : 0 ≤ u) (hu1 : u < 1) :
    pyChoices (nprobs cfg P s) u < cfg.n ∧
      pyChoices (nprobs cfg P s) u ∉ s.visited := by
  have hsum1 : (nprobs cfg P s).sum = 1 := nprobs_sum hT.ne'
  have hx0 : 0 ≤ u * (nprobs cfg P s).sum := by rw [hsum1]; simpa using hu0
  have hxlt : u * (nprobs cfg P s).sum < (nprobs cfg P s).sum := by
    rw [hsum1]; simpa using hu1
  obtain ⟨h1, h2, _, _⟩ := weightedChoice_spec (nprobs cfg P s) _
    (nprobs_nonneg hv hInv hP hT) hx0 hxlt
  rw [nprobs_length] at h1
  exact ⟨h1, nprobs_pos_unvisited h1 h2⟩

/-! ### One step of route construction -/

theorem antStep_eq_exploit {cfg : Cfg} {P : Mat} {s : AntState}
    (hOK : stepOK cfg P s = true)
    (hT : (scores cfg P s.visited s.rev.headI).sum ≠ 0)
    (hr : cfg.g s.k < cfg.q0) :
    antStep cfg P s = some (push cfg s (idxOfMax (nprobs cfg P s)) (s.k + 1)) := by
  rw [antStep, if_pos (by rw [hOK]), if_neg hT, if_pos hr]

theorem antStep_eq_explore {cfg : Cfg} {P : Mat} {s : AntState}
    (hOK : stepOK cfg P s = true)
    (hT : (scores cfg P s.visited s.rev.headI).sum ≠ 0)
    (hr : ¬ cfg.g s.k < cfg.q0) :
    antStep cfg P s =
      some (push cfg s (pyChoices (nprobs cfg P s) (cfg.g (s.k + 1))) (s.k + 2)) := by
  rw [antStep, if_pos (by rw [hOK]), if_neg hT, if_neg hr]

theorem antStep_total {cfg : Cfg} {P : Mat} {s : AntState}
    (hv : Valid cfg) (hInv : AntInv cfg s) (hP0 : ∀ i j, 0 ≤ P i j)
    (hT : 0 < (scores cfg P s.visited s.rev.headI).sum) :
    ∃ nxt k', nxt < cfg.n ∧ nxt ∉ s.visited ∧
      antStep cfg P s = some (push cfg s nxt k') := by
  have hOK : stepOK cfg P s = true := stepOK_true hv hInv
  by_cases hr : cfg.g s.k < cfg.q0
  · obtain ⟨h1, h2⟩ : idxOfMax (nprobs cfg P s) < cfg.n ∧
        idxOfMax (nprobs cfg P s) ∉ s.visited := exploit_spec hv hT.ne'
    exact ⟨_, _, h1, h2, antStep_eq_exploit hOK hT.ne' hr⟩
  · obtain ⟨h1, h2⟩ := explore_spec hv hInv hP0 hT
      (hv.2.2.2 (s.k + 1)).1 (hv.2.2.2 (s.k + 1)).2
    exact ⟨_, _, h1, h2, antStep_eq_explore hOK hT.ne' hr⟩

theorem antStep_some_spec {cfg : Cfg} {P : Mat} {s s' : AntState}
    (hv : Valid cfg) (hInv : AntInv cfg s) (hP0 : ∀ i j, 0 ≤ P i j)
    (h : antStep cfg P s = some s') :
    ∃ nxt k', nxt < cfg.n ∧ nxt ∉ s.visited ∧ s' = push cfg s nxt k' := by
  rw [antStep] at h
  by_cases hOK : stepOK cfg P s = true
  swap
  · rw [if_neg hOK] at h
    exact absurd h (by simp)
  rw [if_pos hOK] at h
  by_cases hT : (scores cfg P s.visited s.rev.headI).sum = 0
  · rw [if_pos hT] at h
    exact absurd h (by simp)
  rw [if_neg hT] at h
  have hTpos : 0 < (scores cfg P s.visited s.rev.headI).sum :=
    lt_of_le_of_ne (List.sum_nonneg (scores_nonneg hv hInv hP0)) (Ne.symm hT)
  by_cases hr : cfg.g s.k < cfg.q0
  · rw [if_pos hr] at h
    obtain ⟨h1, h2⟩ : idxOfMax (nprobs cfg P s) < cfg.n ∧
        idxOfMax (nprobs cfg P s) ∉ s.visited := exploit_spec hv hT
    exact ⟨_, _, h1, h2, (Option.some.inj h).symm⟩
  · rw [if_neg hr] at h
    obtain ⟨h1, h2⟩ := explore_spec hv hInv hP0 hTpos
      (hv.2.2.2 (s.k + 1)).1 (hv.2.2.2 (s.k + 1)).2
    exact ⟨_, _, h1, h2, (Option.some.inj h).symm⟩

theorem antStep_shape {cfg : Cfg} {P : Mat} {s s' : AntState}
    (h : antStep cfg P s = some s') : ∃ nxt k', s' = push cfg s nxt k' := by
  rw [antStep] at h
  split_ifs at h
  all_goals
    first
      | exact Option.noConfusion h
      | exact ⟨_, _, (Option.some.inj h).symm⟩

theorem push_card {cfg : Cfg} {s : AntState} {nxt k' : ℕ} (hnv : nxt ∉ s.visited) :
    (push cfg s nxt k').visited.card = s.visited.card + 1 := by
  simp [push, Finset.card_insert_of_not_mem hnv]

theorem AntInv.push_inv {cfg : Cfg} {s : AntState} (hInv : AntInv cfg s)
    {nxt k' : ℕ} (hn : nxt < cfg.n) (hnv : nxt ∉ s.visited) :
    AntInv cfg (push cfg s nxt k') := by
  obtain ⟨ne, nodup, vis, bounded, last, dist_eq⟩ := hInv
  have hnxt_rev : nxt ∉ s.rev := by
    intro hmem
    exact hnv (by rw [vis, List.mem_toFinset]; exact hmem)
  constructor
  · simp [push]
  · exact List.nodup_cons.2 ⟨hnxt_rev, nodup⟩
  · show insert nxt s.visited = (nxt :: s.rev).toFinset
    rw [List.toFinset_cons, vis]
  · intro j hj
    rcases List.mem_cons.1 hj with h | h
    · exact h ▸ hn
    · exact bounded j h
  · show (nxt :: s.rev).getLast? = some cfg.start
    cases hrev : s.rev with
    | nil => exact absurd hrev ne
    | cons c rest =>
      rw [List.getLast?_cons_cons]
      rw [hrev] at last
      exact last
  · show s.dist + cfg.D s.rev.headI nxt = revDist cfg.D (nxt :: s.rev)
    cases hrev : s.rev with
    | nil => exact absurd hrev ne
    | cons c rest =>
      rw [show revDist cfg.D (nxt :: c :: rest)
            = revDist cfg.D (c :: rest) + cfg.D c nxt from rfl]
      rw [dist_eq, hrev]
      simp

/-! ### The construction loop -/

theorem antLoop_total {cfg : Cfg} {P : Mat} (hv : Valid cfg)
    (hP : ∀ i j, 0 < P i j) :
    ∀ (fuel : ℕ) (s : AntState), AntInv cfg s → cfg.n ≤ fuel + s.visited.card →
      ∃ s', antLoop cfg P fuel s = some s' ∧ AntInv cfg s' ∧
        s'.visited.card = cfg.n := by
  intro fuel
  induction fuel with
  | zero =>
    intro s hInv hle
    have hnot : ¬ s.visited.card < cfg.n := by omega
    refine ⟨s, ?_, hInv, ?_⟩
    · rw [show antLoop cfg P 0 s
          = if s.visited.card < cfg.n then none else some s from rfl, if_neg hnot]
    · have := hInv.card_le
      omega
  | succ fuel ih =>
    intro s hInv hle
    by_cases hcard : s.visited.card < cfg.n
    · have hT := scores_sum_pos hv hInv hP hcard
      obtain ⟨nxt, k', hn, hnv, hstep⟩ :=
        antStep_total hv hInv (fun i j => le_of_lt (hP i j)) hT
      have hInv' : AntInv cfg (push cfg s nxt k') := hInv.push_inv hn hnv
      have hcard' : (push cfg s nxt k').visited.card = s.visited.card + 1 :=
        push_card hnv
      obtain ⟨s', h1, h2, h3⟩ := ih (push cfg s nxt k') hInv' (by omega)
      exact ⟨s', by rw [antLoop_cont hcard hstep]; exact h1, h2, h3⟩
    · refine ⟨s, antLoop_done hcard, hInv, ?_⟩
      have := hInv.card_le
      omega

theorem antLoop_some_inv {cfg : Cfg} {P : Mat} (hv : Valid cfg)
    (hP0 : ∀ i j, 0 ≤ P i j) :
    ∀ {fuel : ℕ} {s s' : AntState}, AntInv cfg s →
      antLoop cfg P fuel s = some s' →
      AntInv cfg s' ∧ s'.visited.card = cfg.n := by
  intro fuel
  induction fuel with
  | zero =>
    intro s s' hInv h
    rw [show antLoop cfg P 0 s
        = if s.visited.card < cfg.n then none else some s from rfl] at h
    split_ifs at h with hc
    all_goals
      first
        | exact Option.noConfusion h
        | (cases Option.some.inj h; have := hInv.card_le; exact ⟨hInv, by omega⟩)
  | succ fuel ih =>
    intro s s' hInv h
    by_cases hcard : s.visited.card < cfg.n
    · cases hstep : antStep cfg P s with
      | none => rw [antLoop_fail hcard hstep] at h; exact absurd h (by simp)
      | some s1 =>
        rw [antLoop_cont hcard hstep] at h
        obtain ⟨nxt, k', hn, hnv, hs1⟩ := antStep_some_spec hv hInv hP0 hstep
        exact ih (hs1 ▸ hInv.push_inv hn hnv) h
    · rw [antLoop_done hcard] at h
      cases Option.some.inj h
      have := hInv.card_le
      exact ⟨hInv, by omega⟩

/-- Shape-only invariant: the reversed route is nonempty and the accumulated
distance equals its edge sum; holds along any successful run with no
assumptions on the inputs. -/
theorem antLoop_some_shape {cfg : Cfg} {P : Mat} :
    ∀ {fuel : ℕ} {s s' : AntState},
      s.rev ≠ [] → s.dist = revDist cfg.D s.rev →
      antLoop cfg P fuel s = some s' →
      s'.rev ≠ [] ∧ s'.dist = revDist cfg.D s'.rev := by
  intro fuel
  induction fuel with
  | zero =>
    intro s s' hne hdist h
    rw [show antLoop cfg P 0 s
        = if s.visited.card < cfg.n then none else some s from rfl] at h
    split_ifs at h
    all_goals
      first
        | exact Option.noConfusion h
        | (cases Option.some.inj h; exact ⟨hne, hdist⟩)
  | succ fuel ih =>
    intro s s' hne hdist h
    by_cases hcard : s.visited.card < cfg.n
    · cases hstep : antStep cfg P s with
      | none => rw [antLoop_fail hcard hstep] at h; exact absurd h (by simp)
      | some s1 =>
        rw [antLoop_cont hcard hstep] at h
        obtain ⟨nxt, k', hs1⟩ := antStep_shape hstep
        have hne1 : s1.rev ≠ [] := by rw [hs1]; simp [push]
        have hdist1 : s1.dist = revDist cfg.D s1.rev := by
          rw [hs1]
          show s.dist + cfg.D s.rev.headI nxt = revDist cfg.D (nxt :: s.rev)
          cases hrev : s.rev with
          | nil => exact absurd hrev hne
          | cons c rest =>
            rw [show revDist cfg.D (nxt :: c :: rest)
                  = revDist cfg.D (c :: rest) + cfg.D c nxt from rfl]
            rw [hdist, hrev]
            simp
        exact ih hne1 hdist1 h
    · rw [antLoop_done hcard] at h
      cases Option.some.inj h
      exact ⟨hne, hdist⟩

/-! ### Assembling the closed tour and its distance -/

theorem AntInv.card_eq {cfg : Cfg} {s : AntState} (h : AntInv cfg s) :
    s.visited.card = s.rev.length := by
  rw [h.vis]
  exact List.toFinset_card_of_nodup h.nodup

theorem headI_of_head? {l : List ℕ} {x : ℕ} (h : l.head? = some x) :
    l.headI = x := by
  cases l with
  | nil => exact Option.noConfusion h
  | cons a l => exact Option.some.inj h

theorem headI_append_ne {A : List ℕ} (h : A ≠ []) (x : ℕ) :
    (A ++ [x]).headI = A.headI := by
  cases A with
  | nil => exact absurd rfl h
  | cons a A' => rfl

theorem mem_of_getLast?_eq {l : List ℕ} {y : ℕ} (h : l.getLast? = some y) :
    y ∈ l := by
  induction l with
  | nil => exact Option.noConfusion h
  | cons a l ih =>
    cases l with
    | nil =>
      simp at h
      subst h
      exact List.mem_singleton_self a
    | cons b l' =>
      rw [List.getLast?_cons_cons] at h
      exact List.mem_cons_of_mem _ (ih h)

theorem headI_ne_getLast {l : List ℕ} (hnd : l.Nodup) (hlen : 2 ≤ l.length)
    {y : ℕ} (hy : l.getLast? = some y) : l.headI ≠ y := by
  cases l with
  | nil => simp at hlen
  | cons c rest =>
    cases rest with
    | nil => simp at hlen
    | cons a rest' =>
      intro hEq
      rw [List.getLast?_cons_cons] at hy
      have hymem : y ∈ a :: rest' := mem_of_getLast?_eq hy
      have hcy : c = y := hEq
      exact (List.nodup_cons.1 hnd).1 (hcy ▸ hymem)

theorem tourDist_append_pair (D : Mat) :
    ∀ (l : List ℕ) (x y : ℕ),
      tourDist D (l ++ [x, y]) = tourDist D (l ++ [x]) + D x y := by
  intro l
  induction l with
  | nil => intro x y; simp [tourDist]
  | cons a l ih =>
    intro x y
    cases l with
    | nil =>
      show tourDist D [a, x, y] = tourDist D [a, x] + D x y
      show D a x + (D x y + 0) = D a x + 0 + D x y
      ring
    | cons b l' =>
      show tourDist D (a :: ((b :: l') ++ [x, y]))
          = tourDist D (a :: ((b :: l') ++ [x])) + D x y
      rw [show tourDist D (a :: ((b :: l') ++ [x, y]))
            = D a b + tourDist D ((b :: l') ++ [x, y]) from rfl]
      rw [show tourDist D (a :: ((b :: l') ++ [x]))
            = D a b + tourDist D ((b :: l') ++ [x]) from rfl]
      rw [ih x y]
      ring

theorem tourDist_reverse_close (D : Mat) :
    ∀ (l : List ℕ), l ≠ [] → ∀ x : ℕ,
      tourDist D (l.reverse ++ [x]) = revDist D l + D l.headI x := by
  intro l
  induction l with
  | nil => intro h; exact absurd rfl h
  | cons c rest ih =>
    intro _ x
    cases rest with
    | nil =>
      show tourDist D [c, x] = revDist D [c] + D c x
      show D c x + 0 = 0 + D c x
      ring
    | cons a rest' =>
      rw [List.reverse_cons, List.append_assoc]
      rw [show ([c] ++ [x] : List ℕ) = [c, x] from rfl]
      rw [tourDist_append_pair]
      rw [ih (by simp) c]
      rw [show revDist D (c :: a :: rest')
            = revDist D (a :: rest') + D a c from rfl]
      rw [show (c :: a :: rest').headI = c from rfl,
          show (a :: rest').headI = a from rfl]

theorem revDist_nonneg {cfg : Cfg} (hv : Valid cfg) :
    ∀ (l : List ℕ), l.Nodup → (∀ j ∈ l, j < cfg.n) → 0 ≤ revDist cfg.D l := by
  intro l
  induction l with
  | nil => intro _ _; exact le_refl 0
  | cons b l ih =>
    intro hnd hb
    cases l with
    | nil => exact le_refl 0
    | cons a rest =>
      rw [show revDist cfg.D (b :: a :: rest)
            = revDist cfg.D (a :: rest) + cfg.D a b from rfl]
      have hih := ih (List.nodup_cons.1 hnd).2
        (fun j hj => hb j (List.mem_cons_of_mem _ hj))
      have hab : a ≠ b := by
        intro h
        exact (List.nodup_cons.1 hnd).1 (h ▸ List.mem_cons_self a rest)
      have hpos := hv.2.2.1 a b (hb a (by simp)) (hb b (by simp)) hab
      linarith

theorem antInv_init {cfg : Cfg} (hv : Valid cfg) (k : ℕ) :
    AntInv cfg ⟨[cfg.start], {cfg.start}, 0, k⟩ := by
  constructor
  · simp
  · simp
  · simp
  · intro j hj
    rw [List.mem_singleton] at hj
    exact hj ▸ hv.2.1
  · rfl
  · rfl

theorem route_assemble {cfg : Cfg} {s : AntState}
    (hv : Valid cfg) (hInv : AntInv cfg s) (hcard : s.visited.card = cfg.n) :
    ValidTour cfg (s.rev.reverse ++ [s.rev.reverse.headI]) ∧
      s.dist + cfg.D s.rev.headI s.rev.reverse.headI
        = tourDist cfg.D (s.rev.reverse ++ [s.rev.reverse.headI]) ∧
      0 < s.dist + cfg.D s.rev.headI s.rev.reverse.headI := by
  have hlen : s.rev.length = cfg.n := by
    have := hInv.card_eq
    omega
  have hrevne : s.rev.reverse ≠ [] := by
    simp [hInv.ne]
  have hrevhead : s.rev.reverse.headI = cfg.start :=
    headI_of_head? (by rw [List.head?_reverse]; exact hInv.last)
  have hlen2 : 2 ≤ s.rev.length := by
    have := hv.1
    omega
  have hne_last : s.rev.headI ≠ cfg.start :=
    headI_ne_getLast hInv.nodup hlen2 hInv.last
  have hstart_lt : cfg.start < cfg.n := hv.2.1
  have hclose_pos : 0 < cfg.D s.rev.headI s.rev.reverse.headI := by
    rw [hrevhead]
    exact hv.2.2.1 _ _ hInv.current_lt hstart_lt hne_last
  have hdist_nonneg : 0 ≤ s.dist := by
    rw [hInv.dist_eq]
    exact revDist_nonneg hv s.rev hInv.nodup hInv.bounded
  refine ⟨⟨?_, ?_, ?_, ?_, ?_⟩, ?_, by linarith⟩
  · simp [hlen]
  · rw [headI_append_ne hrevne, hrevhead]
  · rw [List.getLast?_concat, hrevhead]
  · rw [List.take_left' (by simp [hlen])]
    exact List.nodup_reverse.2 hInv.nodup
  · rw [List.take_left' (by simp [hlen])]
    rw [List.toFinset_reverse, ← hInv.vis]
    refine Finset.eq_of_subset_of_card_le hInv.visited_subset ?_
    rw [Finset.card_range, hcard]
  · rw [hInv.dist_eq]
    exact (tourDist_reverse_close cfg.D s.rev hInv.ne _).symm

theorem constructRoute_some_spec {cfg : Cfg} {P : Mat} {k : ℕ}
    {t : List ℕ} {d : ℚ} {k' : ℕ}
    (hv : Valid cfg) (hP0 : ∀ i j, 0 ≤ P i j)
    (h : constructRoute cfg P k = some (t, d, k')) :
    ValidTour cfg t ∧ d = tourDist cfg.D t ∧ 0 < d := by
  cases hloop : antLoop cfg P cfg.n ⟨[cfg.start], {cfg.start}, 0, k⟩ with
  | none =>
    rw [constructRoute_eq_none hloop] at h
    exact Option.noConfusion h
  | some s =>
    obtain ⟨hInv, hcard⟩ := antLoop_some_inv hv hP0 (antInv_init hv k) hloop
    rw [constructRoute_eq_some hloop] at h
    have hT := Option.some.inj h
    obtain ⟨hvt, hdeq, hdpos⟩ := route_assemble hv hInv hcard
    have ht : t = s.rev.reverse ++ [s.rev.reverse.headI] :=
      (congrArg Prod.fst hT).symm
    have hd : d = s.dist + cfg.D s.rev.headI s.rev.reverse.headI :=
      (congrArg (fun p => p.2.1) hT).symm
    subst ht
    subst hd
    exact ⟨hvt, hdeq, hdpos⟩

theorem constructRoute_total {cfg : Cfg} {P : Mat} (k : ℕ)
    (hv : Valid cfg) (hP : ∀ i j, 0 < P i j) :
    ∃ t d k', constructRoute cfg P k = some (t, d, k') ∧ ValidTour cfg t ∧
      d = tourDist cfg.D t ∧ 0 < d := by
  obtain ⟨s, hloop, _, _⟩ := antLoop_total hv hP cfg.n _ (antInv_init hv k)
    (by simp)
  refine ⟨_, _, _, constructRoute_eq_some hloop, ?_⟩
  exact constructRoute_some_spec hv (fun i j => (hP i j).le)
    (constructRoute_eq_some hloop)

theorem constructRoute_dist {cfg : Cfg} {P : Mat} {k : ℕ}
    {t : List ℕ} {d : ℚ} {k' : ℕ}
    (h : constructRoute cfg P k = some (t, d, k')) : d = tourDist cfg.D t := by
  cases hloop : antLoop cfg P cfg.n ⟨[cfg.start], {cfg.start}, 0, k⟩ with
  | none =>
    rw [constructRoute_eq_none hloop] at h
    exact Option.noConfusion h
  | some s =>
    rw [constructRoute_eq_some hloop] at h
    obtain ⟨hne, hdist⟩ := antLoop_some_shape (by simp) rfl hloop
    have hT := Option.some.inj h
    have ht : t = s.rev.reverse ++ [s.rev.reverse.headI] :=
      (congrArg Prod.fst hT).symm
    have hd : d = s.dist + cfg.D s.rev.headI s.rev.reverse.headI :=
      (congrArg (fun p => p.2.1) hT).symm
    rw [ht, hd, hdist, tourDist_reverse_close cfg.D s.rev hne]

/-! ### Best-solution tracking -/

theorem dLE_refl (x : Option ℚ) : dLE x x := by
  cases x with
  | none => trivial
  | some a => exact le_refl a

theorem dLE_trans {x y z : Option ℚ} (h1 : dLE x y) (h2 : dLE y z) : dLE x z := by
  cases z with
  | none => cases x <;> trivial
  | some c =>
    cases y with
    | none => exact h2.elim
    | some b =>
      cases x with
      | none => exact h1.elim
      | some a => exact le_trans (α := ℚ) h1 h2

theorem dLE_some {x : Option ℚ} {b : ℚ} (h : dLE x (some b)) :
    ∃ a, x = some a ∧ a ≤ b := by
  cases x with
  | none => exact h.elim
  | some a => exact ⟨a, rfl, h⟩

theorem ltBest_true_iff (d : ℚ) (bd : Option ℚ) :
    ltBest d bd = true ↔ bd = none ∨ ∃ b, bd = some b ∧ d < b := by
  cases bd with
  | none => simp [ltBest]
  | some b => simp [ltBest]

theorem dLE_update (d : ℚ) (bd : Option ℚ) :
    dLE (if ltBest d bd then some d else bd) bd := by
  cases bd with
  | none =>
    split_ifs <;> trivial
  | some b =>
    by_cases h : ltBest d (some b) = true
    · rw [if_pos h]
      have hdb : d < b := by simpa [ltBest] using h
      exact le_of_lt hdb
    · rw [if_neg h]
      exact dLE_refl _

theorem runAnts_dLE {cfg : Cfg} {P : Mat} :
    ∀ {m : ℕ} {acc acc' : IterAcc}, runAnts cfg P m acc = some acc' →
      dLE acc'.bestDist acc.bestDist := by
  intro m
  induction m with
  | zero =>
    intro acc acc' h
    cases Option.some.inj h
    exact dLE_refl _
  | succ m ih =>
    intro acc acc' h
    cases hc : constructRoute cfg P acc.k with
    | none => rw [runAnts_fail hc] at h; exact Option.noConfusion h
    | some tdk =>
      obtain ⟨t, d, k'⟩ := tdk
      rw [runAnts_cont hc] at h
      exact dLE_trans (ih h) (dLE_update d acc.bestDist)

theorem runAnts_best_some {cfg : Cfg} {P : Mat} {m : ℕ} {acc acc' : IterAcc}
    (h : runAnts cfg P (m + 1) acc = some acc') :
    ∃ b, acc'.bestDist = some b := by
  cases hc : constructRoute cfg P acc.k with
  | none => rw [runAnts_fail hc] at h; exact Option.noConfusion h
  | some tdk =>
    obtain ⟨t, d, k'⟩ := tdk
    rw [runAnts_cont hc] at h
    have hupd : ∃ b0, (if ltBest d acc.bestDist then some d
        else acc.bestDist) = some b0 := by
      by_cases hlt : ltBest d acc.bestDist = true
      · exact ⟨d, by rw [if_pos hlt]⟩
      · have hne : acc.bestDist ≠ none := by
          intro hn
          apply hlt
          rw [hn]
          rfl
        obtain ⟨b, hb⟩ := Option.ne_none_iff_exists'.1 hne
        exact ⟨b, by rw [if_neg hlt, hb]⟩
    obtain ⟨b0, hb0⟩ := hupd
    have h1 : dLE acc'.bestDist
        (if ltBest d acc.bestDist then some d else acc.bestDist) := runAnts_dLE h
    rw [hb0] at h1
    obtain ⟨a, ha, _⟩ := dLE_some h1
    exact ⟨a, ha⟩

theorem runAnts_some_dists {cfg : Cfg} {P : Mat} (hv : Valid cfg)
    (hP0 : ∀ i j, 0 ≤ P i j) :
    ∀ {m : ℕ} {acc acc' : IterAcc}, runAnts cfg P m acc = some acc' →
      (∀ d ∈ acc.dists, 0 < d) → ∀ d ∈ acc'.dists, 0 < d := by
  intro m
  induction m with
  | zero =>
    intro acc acc' h hd
    cases Option.some.inj h
    exact hd
  | succ m ih =>
    intro acc acc' h hd
    cases hc : constructRoute cfg P acc.k with
    | none => rw [runAnts_fail hc] at h; exact Option.noConfusion h
    | some tdk =>
      obtain ⟨t, d, k'⟩ := tdk
      rw [runAnts_cont hc] at h
      refine ih h ?_
      intro d' hd'
      have hd'' : d' ∈ acc.dists ++ [d] := hd'
      rcases List.mem_append.1 hd'' with h' | h'
      · exact hd d' h'
      · rw [List.mem_singleton] at h'
        subst h'
        exact (constructRoute_some_spec hv hP0 hc).2.2

theorem BestInv.update {cfg : Cfg} {best : Option (List ℕ)} {bd : Option ℚ}
    (h : BestInv cfg best bd) {t : List ℕ} (d : ℚ) (hvt : ValidTour cfg t) :
    BestInv cfg (if ltBest d bd then some t else best)
      (if ltBest d bd then some d else bd) := by
  by_cases hlt : ltBest d bd = true
  · rw [if_pos hlt, if_pos hlt]
    exact ⟨fun h' => Option.noConfusion h', fun b _ => ⟨t, rfl, hvt⟩⟩
  · rw [if_neg hlt, if_neg hlt]
    exact h

theorem runAnts_total {cfg : Cfg} {P : Mat} (hv : Valid cfg)
    (hP : ∀ i j, 0 < P i j) :
    ∀ (m : ℕ) (acc : IterAcc), (∀ d ∈ acc.dists, 0 < d) →
      BestInv cfg acc.best acc.bestDist →
      ∃ acc', runAnts cfg P m acc = some acc' ∧ (∀ d ∈ acc'.dists, 0 < d) ∧
        BestInv cfg acc'.best acc'.bestDist := by
  intro m
  induction m with
  | zero => intro acc h1 h2; exact ⟨acc, rfl, h1, h2⟩
  | succ m ih =>
    intro acc h1 h2
    obtain ⟨t, d, k', hc, hvt, _, hdpos⟩ := constructRoute_total acc.k hv hP
    obtain ⟨acc', ha, hb, hbinv⟩ := ih
      ⟨acc.routes ++ [t], acc.dists ++ [d],
       if ltBest d acc.bestDist then some t else acc.best,
       if ltBest d acc.bestDist then some d else acc.bestDist, k'⟩
      (by
        intro d' hd'
        have hd'' : d' ∈ acc.dists ++ [d] := hd'
        rcases List.mem_append.1 hd'' with h' | h'
        · exact h1 d' h'
        · rw [List.mem_singleton] at h'
          subst h'
          exact hdpos)
      (h2.update d hvt)
    exact ⟨acc', by rw [runAnts_cont hc]; exact ha, hb, hbinv⟩

/-! ### Evaporation and deposit -/

theorem evaporate_pos {cfg : Cfg} {P : Mat} (hrho : cfg.rho < 1)
    (hP : ∀ i j, 0 < P i j) : ∀ i j, 0 < evaporate cfg P i j := by
  intro i j
  have h1 : 0 < 1 - cfg.rho := by linarith
  exact mul_pos (hP i j) h1

theorem evaporate_nonneg {cfg : Cfg} {P : Mat} (hrho : cfg.rho ≤ 1)
    (hP : ∀ i j, 0 ≤ P i j) : ∀ i j, 0 ≤ evaporate cfg P i j := by
  intro i j
  have h1 : 0 ≤ 1 - cfg.rho := by linarith
  exact mul_nonneg (hP i j) h1

theorem depositRoute_pos {amt : ℚ} (hamt : 0 ≤ amt) :
    ∀ (t : List ℕ) (P : Mat), (∀ i j, 0 < P i j) →
      ∀ i j, 0 < depositRoute amt P t i j := by
  intro t
  induction t with
  | nil => intro P hP; exact hP
  | cons a t ih =>
    cases t with
    | nil => intro P hP; exact hP
    | cons b rest =>
      intro P hP i j
      show 0 < depositRoute amt (bump P a b amt) (b :: rest) i j
      refine ih (bump P a b amt) ?_ i j
      intro i' j'
      rw [bump]
      split_ifs
      · linarith [hP i' j']
      · exact hP i' j'

theorem depositRoute_nonneg {amt : ℚ} (hamt : 0 ≤ amt) :
    ∀ (t : List ℕ) (P : Mat), (∀ i j, 0 ≤ P i j) →
      ∀ i j, 0 ≤ depositRoute amt P t i j := by
  intro t
  induction t with
  | nil => intro P hP; exact hP
  | cons a t ih =>
    cases t with
    | nil => intro P hP; exact hP
    | cons b rest =>
      intro P hP i j
      show 0 ≤ depositRoute amt (bump P a b amt) (b :: rest) i j
      refine ih (bump P a b amt) ?_ i j
      intro i' j'
      rw [bump]
      split_ifs
      · linarith [hP i' j']
      · exact hP i' j'

theorem depositAll_pos :
    ∀ (ts : List (List ℕ)) (ds : List ℚ) (P : Mat), (∀ i j, 0 < P i j) →
      (∀ d ∈ ds, 0 < d) → ∀ i j, 0 < depositAll P ts ds i j := by
  intro ts
  induction ts with
  | nil => intro ds P hP _; exact hP
  | cons t ts ih =>
    intro ds P hP hds
    cases ds with
    | nil => exact hP
    | cons d ds' =>
      show ∀ i j, 0 < depositAll (depositRoute (1 / d) P t) ts ds' i j
      refine ih ds' _ ?_ fun d' hd' => hds d' (List.mem_cons_of_mem _ hd')
      exact depositRoute_pos (le_of_lt (one_div_pos.2 (hds d (by simp)))) t P hP

theorem depositAll_nonneg :
    ∀ (ts : List (List ℕ)) (ds : List ℚ) (P : Mat), (∀ i j, 0 ≤ P i j) →
      (∀ d ∈ ds, 0 < d) → ∀ i j, 0 ≤ depositAll P ts ds i j := by
  intro ts
  induction ts with
  | nil => intro ds P hP _; exact hP
  | cons t ts ih =>
    intro ds P hP hds
    cases ds with
    | nil => exact hP
    | cons d ds' =>
      show ∀ i j, 0 ≤ depositAll (depositRoute (1 / d) P t) ts ds' i j
      refine ih ds' _ ?_ fun d' hd' => hds d' (List.mem_cons_of_mem _ hd')
      exact depositRoute_nonneg (le_of_lt (one_div_pos.2 (hds d (by simp)))) t P hP

/-! ### Whole-run inductions -/

theorem runIteration_total {cfg : Cfg} {nA : ℕ} {st : ColonyState}
    (hv : Valid cfg) (hrho : cfg.rho < 1) (hc : ColInv cfg st) :
    ∃ st', runIteration cfg nA st = some st' ∧ ColInv cfg st' ∧
      dLE st'.bestDist st.bestDist ∧ (1 ≤ nA → ∃ b, st'.bestDist = some b) := by
  obtain ⟨acc, ha, hdists, hbinv⟩ := runAnts_total hv hc.1 nA
    ⟨[], [], st.best, st.bestDist, st.k⟩ (by simp) hc.2
  refine ⟨_, runIteration_eq_some ha, ⟨?_, hbinv⟩, ?_, ?_⟩
  · exact depositAll_pos _ _ _ (evaporate_pos hrho hc.1) hdists
  · exact runAnts_dLE ha
  · intro hnA
    cases nA with
    | zero => exact absurd hnA (by omega)
    | succ m => exact runAnts_best_some ha

theorem runColony_total {cfg : Cfg} {nA : ℕ} (hv : Valid cfg)
    (hrho : cfg.rho < 1) :
    ∀ (m : ℕ) (st : ColonyState), ColInv cfg st →
      ∃ st', runColony cfg nA m st = some st' ∧ ColInv cfg st' ∧
        dLE st'.bestDist st.bestDist ∧
        (1 ≤ m → 1 ≤ nA → ∃ b, st'.bestDist = some b) := by
  intro m
  induction m with
  | zero =>
    intro st hc
    exact ⟨st, rfl, hc, dLE_refl _, fun h _ => absurd h (by omega)⟩
  | succ m ih =>
    intro st hc
    obtain ⟨st1, h1, hc1, hdle1, hsome1⟩ := runIteration_total hv hrho hc
    obtain ⟨st', h2, hc2, hdle2, _⟩ := ih st1 hc1
    refine ⟨st', by rw [runColony_succ_some h1]; exact h2, hc2,
      dLE_trans hdle2 hdle1, ?_⟩
    intro _ hnA
    obtain ⟨b, hb⟩ := hsome1 hnA
    obtain ⟨a, ha, _⟩ := dLE_some (hb ▸ hdle2)
    exact ⟨a, ha⟩

theorem runColony_dLE {cfg : Cfg} {nA : ℕ} :
    ∀ {m : ℕ} {st st' : ColonyState}, runColony cfg nA m st = some st' →
      dLE st'.bestDist st.bestDist := by
  intro m
  induction m with
  | zero =>
    intro st st' h
    cases Option.some.inj h
    exact dLE_refl _
  | succ m ih =>
    intro st st' h
    cases h1 : runIteration cfg nA st with
    | none => rw [runColony_succ_none h1] at h; exact Option.noConfusion h
    | some st1 =>
      rw [runColony_succ_some h1] at h
      refine dLE_trans (ih h) ?_
      rw [runIteration] at h1
      cases h2 : runAnts cfg st.P nA ⟨[], [], st.best, st.bestDist, st.k⟩ with
      | none => rw [h2] at h1; exact Option.noConfusion h1
      | some acc =>
        rw [h2] at h1
        cases Option.some.inj h1
        exact runAnts_dLE h2

theorem runColony_some_nonneg {cfg : Cfg} {nA : ℕ} (hv : Valid cfg)
    (hrho : cfg.rho ≤ 1) :
    ∀ {m : ℕ} {st st' : ColonyState}, runColony cfg nA m st = some st' →
      (∀ i j, 0 ≤ st.P i j) → ∀ i j, 0 ≤ st'.P i j := by
  intro m
  induction m with
  | zero =>
    intro st st' h hP
    cases Option.some.inj h
    exact hP
  | succ m ih =>
    intro st st' h hP
    cases h1 : runIteration cfg nA st with
    | none => rw [runColony_succ_none h1] at h; exact Option.noConfusion h
    | some st1 =>
      rw [runColony_succ_some h1] at h
      refine ih h ?_
      rw [runIteration] at h1
      cases h2 : runAnts cfg st.P nA ⟨[], [], st.best, st.bestDist, st.k⟩ with
      | none => rw [h2] at h1; exact Option.noConfusion h1
      | some acc =>
        rw [h2] at h1
        cases Option.some.inj h1
        have hdists : ∀ d ∈ acc.dists, 0 < d :=
          runAnts_some_dists hv hP h2 (by intro d hd; simp at hd)
        exact depositAll_nonneg _ _ _ (evaporate_nonneg hrho hP) hdists

/-! ### Closed form of one iteration's pheromone update -/

theorem adjCount_cons_cons (a b : ℕ) (rest : List ℕ) (i j : ℕ) :
    adjCount (a :: b :: rest) i j =
      adjCount (b :: rest) i j + (if (a, b) = (i, j) then 1 else 0) := by
  rw [adjCount, adjCount,
    show (a :: b :: rest).zip (a :: b :: rest).tail
        = (a, b) :: ((b :: rest).zip (b :: rest).tail) from rfl,
    List.count_cons]
  congr 1
  simp

theorem depositRoute_apply (amt : ℚ) :
    ∀ (t : List ℕ) (P : Mat) (i j : ℕ),
      depositRoute amt P t i j = P i j + (adjCount t i j : ℚ) * amt := by
  intro t
  induction t with
  | nil =>
    intro P i j
    show P i j = P i j + (adjCount [] i j : ℚ) * amt
    simp [adjCount]
  | cons a t ih =>
    cases t with
    | nil =>
      intro P i j
      show P i j = P i j + (adjCount [a] i j : ℚ) * amt
      simp [adjCount]
    | cons b rest =>
      intro P i j
      show depositRoute amt (bump P a b amt) (b :: rest) i j
          = P i j + (adjCount (a :: b :: rest) i j : ℚ) * amt
      rw [ih (bump P a b amt) i j, adjCount_cons_cons, bump]
      push_cast
      split_ifs with h1 h2 h3
      · ring
      · exfalso
        apply h2
        rw [h1.1, h1.2]
      · exfalso
        cases h3
        exact h1 ⟨rfl, rfl⟩
      · ring

theorem depositAll_apply :
    ∀ (ts : List (List ℕ)) (ds : List ℚ) (P : Mat) (i j : ℕ),
      depositAll P ts ds i j = P i j + depositSum ts ds i j := by
  intro ts
  induction ts with
  | nil =>
    intro ds P i j
    show P i j = P i j + depositSum [] ds i j
    simp [depositSum]
  | cons t ts ih =>
    intro ds P i j
    cases ds with
    | nil =>
      show P i j = P i j + depositSum (t :: ts) [] i j
      simp [depositSum]
    | cons d ds' =>
      show depositAll (depositRoute (1 / d) P t) ts ds' i j
          = P i j + depositSum (t :: ts) (d :: ds') i j
      rw [ih ds' _ i j, depositRoute_apply]
      rw [show depositSum (t :: ts) (d :: ds') i j
            = (adjCount t i j : ℚ) * (1 / d) + depositSum ts ds' i j by
          rw [depositSum, depositSum,
            show (t :: ts).zip (d :: ds') = (t, d) :: ts.zip ds' from rfl,
            List.map_cons, List.sum_cons]]
      ring

theorem depositSum_pos {ts : List (List ℕ)} {ds : List ℚ} {i j : ℕ}
    (hds : ∀ d ∈ ds, 0 < d) {t0 : List ℕ} {d0 : ℚ}
    (hmem : (t0, d0) ∈ ts.zip ds) (hcount : 0 < adjCount t0 i j) :
    0 < depositSum ts ds i j := by
  refine sum_pos_of_mem ?_ (List.mem_map.2 ⟨(t0, d0), hmem, rfl⟩) ?_
  · intro x hx
    obtain ⟨⟨t, d⟩, hm, rfl⟩ := List.mem_map.1 hx
    have hd : d ∈ ds := (List.of_mem_zip hm).2
    exact mul_nonneg (by positivity) (le_of_lt (one_div_pos.2 (hds d hd)))
  · have hd0 : d0 ∈ ds := (List.of_mem_zip hmem).2
    exact mul_pos (by exact_mod_cast hcount) (one_div_pos.2 (hds d0 hd0))

/-! ### Runs with no ants or no iterations -/

theorem runColony_no_ants {cfg : Cfg} :
    ∀ (m : ℕ) (st : ColonyState),
      ∃ st', runColony cfg 0 m st = some st' ∧ st'.best = st.best ∧
        st'.bestDist = st.bestDist := by
  intro m
  induction m with
  | zero => intro st; exact ⟨st, rfl, rfl, rfl⟩
  | succ m ih =>
    intro st
    have h0 : runAnts cfg st.P 0 ⟨[], [], st.best, st.bestDist, st.k⟩
        = some ⟨[], [], st.best, st.bestDist, st.k⟩ := rfl
    have h1 := runIteration_eq_some h0
    obtain ⟨st', h2, h3, h4⟩ := ih ⟨depositAll (evaporate cfg st.P) [] [],
      st.best, st.bestDist, st.k⟩
    refine ⟨st', ?_, h3, h4⟩
    rw [runColony_succ_some h1]
    exact h2

/-! ### Two-location runs -/

theorem scores_sum_pos_at {cfg : Cfg} {P : Mat} {s : AntState}
    (hv : Valid cfg) (hInv : AntInv cfg s) (hP0 : ∀ i j, 0 ≤ P i j)
    (j0 : ℕ) (hj0n : j0 < cfg.n) (hj0v : j0 ∉ s.visited)
    (hPj0 : 0 < P s.rev.headI j0) :
    0 < (scores cfg P s.visited s.rev.headI).sum := by
  have hmem : (scores cfg P s.visited s.rev.headI).getD j0 0
      ∈ scores cfg P s.visited s.rev.headI :=
    getD_mem_of_lt (by rw [scores_length]; exact hj0n)
  have hval : (scores cfg P s.visited s.rev.headI).getD j0 0
      = scoreVal cfg P s.rev.headI j0 := by
    rw [scores_getD hj0n, if_neg hj0v]
  have hpos : 0 < scoreVal cfg P s.rev.headI j0 :=
    scoreVal_pos hPj0
      (hv.2.2.1 _ _ hInv.current_lt hj0n (current_ne_unvisited hInv hj0v))
  exact sum_pos_of_mem (scores_nonneg hv hInv hP0) hmem (hval ▸ hpos)

theorem twoDist_pos {cfg : Cfg} (hv : Valid cfg) (h2 : cfg.n = 2) :
    0 < twoDist cfg := by
  have hs2 : cfg.start < 2 := h2 ▸ hv.2.1
  have ha := hv.2.2.1 cfg.start (1 - cfg.start) (by omega) (by omega) (by omega)
  have hb := hv.2.2.1 (1 - cfg.start) cfg.start (by omega) (by omega) (by omega)
  rw [twoDist]
  linarith

theorem adjCount_two (cfg : Cfg) :
    0 < adjCount (twoTour cfg) cfg.start (1 - cfg.start) := by
  rw [twoTour, adjCount]
  rw [show ([cfg.start, 1 - cfg.start, cfg.start].zip
        [cfg.start, 1 - cfg.start, cfg.start].tail)
      = [(cfg.start, 1 - cfg.start), (1 - cfg.start, cfg.start)] from rfl]
  simp [List.count_cons]

theorem construct2 {cfg : Cfg} {P : Mat} (hv : Valid cfg) (h2 : cfg.n = 2)
    (hP0 : ∀ i j, 0 ≤ P i j) (hPe : 0 < P cfg.start (1 - cfg.start)) (k : ℕ) :
    ∃ k', constructRoute cfg P k = some (twoTour cfg, twoDist cfg, k') := by
  have hInv0 := antInv_init hv k
  have hs2 : cfg.start < 2 := h2 ▸ hv.2.1
  have hov : (1 - cfg.start) ∉ ({cfg.start} : Finset ℕ) := by
    rw [Finset.mem_singleton]
    omega
  have hPe' : 0 < P (([cfg.start] : List ℕ).headI) (1 - cfg.start) := hPe
  have hT : 0 < (scores cfg P
      ((⟨[cfg.start], {cfg.start}, 0, k⟩ : AntState).visited)
      ((⟨[cfg.start], {cfg.start}, 0, k⟩ : AntState).rev.headI)).sum :=
    scores_sum_pos_at hv hInv0 hP0 (1 - cfg.start) (by omega) hov hPe'
  obtain ⟨nxt, k', hn, hnv, hstep⟩ := antStep_total hv hInv0 hP0 hT
  have hnxt : nxt = 1 - cfg.start := by
    have h1 : nxt < 2 := by
      have := hn
      omega
    have hh : nxt ≠ cfg.start := by
      intro h
      exact hnv (by rw [h]; exact Finset.mem_singleton_self _)
    omega
  subst hnxt
  have hcard1 : (⟨[cfg.start], {cfg.start}, 0, k⟩ : AntState).visited.card
      < cfg.n := by
    show ({cfg.start} : Finset ℕ).card < cfg.n
    rw [Finset.card_singleton]
    omega
  have hcard2 : ¬ (push cfg ⟨[cfg.start], {cfg.start}, 0, k⟩
      (1 - cfg.start) k').visited.card < cfg.n := by
    rw [push_card hnv]
    show ¬ ({cfg.start} : Finset ℕ).card + 1 < cfg.n
    rw [Finset.card_singleton]
    omega
  have hloop : antLoop cfg P cfg.n ⟨[cfg.start], {cfg.start}, 0, k⟩
      = some (push cfg ⟨[cfg.start], {cfg.start}, 0, k⟩ (1 - cfg.start) k') := by
    rw [h2]
    rw [antLoop_cont hcard1 hstep]
    exact antLoop_done hcard2
  refine ⟨k', ?_⟩
  rw [constructRoute_eq_some hloop]
  simp only [push, twoTour, twoDist]
  norm_num

theorem runAnts2 {cfg : Cfg} {P : Mat} (hv : Valid cfg) (h2 : cfg.n = 2)
    (hP0 : ∀ i j, 0 ≤ P i j) (hPe : 0 < P cfg.start (1 - cfg.start)) :
    ∀ (m : ℕ) (acc : IterAcc),
      ((acc.best = none ∧ acc.bestDist = none) ∨
        (acc.best = some (twoTour cfg) ∧ acc.bestDist = some (twoDist cfg))) →
      (∀ t ∈ acc.routes, t = twoTour cfg) →
      (∀ d ∈ acc.dists, d = twoDist cfg) →
      acc.routes.length = acc.dists.length →
      ∃ acc', runAnts cfg P m acc = some acc' ∧
        ((acc'.best = none ∧ acc'.bestDist = none) ∨
          (acc'.best = some (twoTour cfg) ∧
            acc'.bestDist = some (twoDist cfg))) ∧
        (∀ t ∈ acc'.routes, t = twoTour cfg) ∧
        (∀ d ∈ acc'.dists, d = twoDist cfg) ∧
        acc'.routes.length = acc'.dists.length ∧
        acc'.routes.length = acc.routes.length + m ∧
        (1 ≤ m → acc'.best = some (twoTour cfg) ∧
          acc'.bestDist = some (twoDist cfg)) ∧
        (acc.best = some (twoTour cfg) ∧ acc.bestDist = some (twoDist cfg) →
          acc'.best = some (twoTour cfg) ∧
            acc'.bestDist = some (twoDist cfg)) := by
  intro m
  induction m with
  | zero =>
    intro acc hbest hroutes hdists hlen
    exact ⟨acc, rfl, hbest, hroutes, hdists, hlen, by omega,
      fun h => absurd h (by omega), fun h => h⟩
  | succ m ih =>
    intro acc hbest hroutes hdists hlen
    obtain ⟨k', hc⟩ := construct2 hv h2 hP0 hPe acc.k
    have hupd : (if ltBest (twoDist cfg) acc.bestDist then some (twoTour cfg)
        else acc.best) = some (twoTour cfg) ∧
        (if ltBest (twoDist cfg) acc.bestDist then some (twoDist cfg)
          else acc.bestDist) = some (twoDist cfg) := by
      rcases hbest with ⟨hb, hd⟩ | ⟨hb, hd⟩
      · rw [hd]
        exact ⟨rfl, rfl⟩
      · rw [hb, hd]
        by_cases hlt : ltBest (twoDist cfg) (some (twoDist cfg)) = true
        · rw [if_pos hlt, if_pos hlt]
          exact ⟨rfl, rfl⟩
        · rw [if_neg hlt, if_neg hlt]
          exact ⟨rfl, rfl⟩
    obtain ⟨acc', ha, hbest', hroutes', hdists', hlen', hcount', _, habs'⟩ :=
      ih ⟨acc.routes ++ [twoTour cfg], acc.dists ++ [twoDist cfg],
          if ltBest (twoDist cfg) acc.bestDist then some (twoTour cfg)
            else acc.best,
          if ltBest (twoDist cfg) acc.bestDist then some (twoDist cfg)
            else acc.bestDist, k'⟩
        (Or.inr hupd)
        (by
          intro t ht
          have ht' : t ∈ acc.routes ++ [twoTour cfg] := ht
          rcases List.mem_append.1 ht' with h' | h'
          · exact hroutes t h'
          · rw [List.mem_singleton] at h'
            exact h')
        (by
          intro d hd
          have hd' : d ∈ acc.dists ++ [twoDist cfg] := hd
          rcases List.mem_append.1 hd' with h' | h'
          · exact hdists d h'
          · rw [List.mem_singleton] at h'
            exact h')
        (by
          show (acc.routes ++ [twoTour cfg]).length
              = (acc.dists ++ [twoDist cfg]).length
          simp [hlen])
    have hsecond := habs' hupd
    refine ⟨acc', by rw [runAnts_cont hc]; exact ha, hbest', hroutes', hdists',
      hlen', ?_, fun _ => hsecond, fun _ => hsecond⟩
    have hcount2 : acc'.routes.length
        = (acc.routes ++ [twoTour cfg]).length + m := hcount'
    rw [List.length_append] at hcount2
    simp at hcount2
    omega

theorem runIteration2 {cfg : Cfg} {nA : ℕ} {st : ColonyState}
    (hv : Valid cfg) (h2 : cfg.n = 2) (hrho : cfg.rho ≤ 1) (hA : 1 ≤ nA)
    (hinv : TwoInv cfg st) :
    ∃ st', runIteration cfg nA st = some st' ∧ TwoInv cfg st' ∧
      st'.best = some (twoTour cfg) ∧ st'.bestDist = some (twoDist cfg) := by
  obtain ⟨acc, ha, _, hroutes, hdists, hlen, hcount, hone, _⟩ :=
    runAnts2 hv h2 hinv.1 hinv.2.1 nA ⟨[], [], st.best, st.bestDist, st.k⟩
      hinv.2.2 (by intro t ht; simp at ht) (by intro d hd; simp at hd) rfl
  obtain ⟨hb', hd'⟩ := hone hA
  have hdpos : ∀ d ∈ acc.dists, 0 < d := by
    intro d hd
    rw [hdists d hd]
    exact twoDist_pos hv h2
  refine ⟨_, runIteration_eq_some ha, ⟨?_, ?_, Or.inr ⟨hb', hd'⟩⟩, hb', hd'⟩
  · exact depositAll_nonneg _ _ _ (evaporate_nonneg hrho hinv.1) hdpos
  · show 0 < depositAll (evaporate cfg st.P) acc.routes acc.dists
        cfg.start (1 - cfg.start)
    rw [depositAll_apply]
    have hev : 0 ≤ evaporate cfg st.P cfg.start (1 - cfg.start) :=
      evaporate_nonneg hrho hinv.1 _ _
    have hpos : 0 < depositSum acc.routes acc.dists cfg.start
        (1 - cfg.start) := by
      cases hre : acc.routes with
      | nil =>
        rw [hre] at hcount
        simp at hcount
        omega
      | cons r R =>
        cases hde : acc.dists with
        | nil =>
          rw [hre, hde] at hlen
          simp at hlen
        | cons d D =>
          have hr : r = twoTour cfg := hroutes r (by rw [hre]; simp)
          have hd : d = twoDist cfg := hdists d (by rw [hde]; simp)
          refine depositSum_pos ?_
            (show (r, d) ∈ (r :: R).zip (d :: D) from List.mem_cons_self _ _) ?_
          · intro d' hd'
            refine hdpos d' ?_
            rw [hde]
            exact hd'
          · rw [hr]
            exact adjCount_two cfg
    linarith

theorem runColony2 {cfg : Cfg} {nA : ℕ} (hv : Valid cfg) (h2 : cfg.n = 2)
    (hrho : cfg.rho ≤ 1) (hA : 1 ≤ nA) :
    ∀ (m : ℕ) (st : ColonyState), TwoInv cfg st →
      ∃ st', runColony cfg nA m st = some st' ∧ TwoInv cfg st' ∧
        (1 ≤ m → st'.best = some (twoTour cfg) ∧
          st'.bestDist = some (twoDist cfg)) := by
  intro m
  induction m with
  | zero =>
    intro st hinv
    exact ⟨st, rfl, hinv, fun h => absurd h (by omega)⟩
  | succ m ih =>
    intro st hinv
    obtain ⟨st1, h1, hinv1, hb1, hd1⟩ := runIteration2 hv h2 hrho hA hinv
    obtain ⟨st', h2', hinv', hone'⟩ := ih st1 hinv1
    refine ⟨st', by rw [runColony_succ_some h1]; exact h2', hinv', fun _ => ?_⟩
    cases m with
    | zero =>
      cases Option.some.inj h2'
      exact ⟨hb1, hd1⟩
    | succ m' => exact hone' (by omega)

/-! ### Concrete evaluations

The arithmetic of `ℚ` in the Batteries library is sealed against unfolding;
re-opening it locally lets `rfl` evaluate whole runs of the solver on the
concrete inputs defined above. -/

attribute [local semireducible] Rat.add Rat.mul Rat.inv Rat.sub

set_option maxRecDepth 1000000

theorem wCfg_valid : Valid wCfg := by
  refine ⟨by norm_num [wCfg], by norm_num [wCfg], ?_, ?_⟩
  · intro i j _ _ hne
    show (0 : ℚ) < if i = j then 0 else 1
    rw [if_neg hne]
    norm_num
  · intro k
    constructor
    · exact le_refl 0
    · show (0 : ℚ) < 1
      norm_num

theorem wCfg8_valid : Valid wCfg8 := by
  refine ⟨by norm_num [wCfg8], by norm_num [wCfg8], ?_, ?_⟩
  · intro i j _ _ hne
    show (0 : ℚ) < if i = j then 0 else 3
    rw [if_neg hne]
    norm_num
  · intro k
    constructor
    · exact le_refl 0
    · show (0 : ℚ) < 1
      norm_num

theorem cexCfg_valid : Valid cexCfg := by
  refine ⟨by norm_num [cexCfg], by norm_num [cexCfg], ?_, ?_⟩
  · intro i j _ _ hne
    show (0 : ℚ) < if i = j then 0 else 1
    rw [if_neg hne]
    norm_num
  · intro k
    show 0 ≤ cexG k ∧ cexG k < 1
    rw [cexG]
    split_ifs <;> norm_num

theorem wInv0 : AntInv wCfg ⟨[0], {0}, 0, 0⟩ := antInv_init wCfg_valid 0

theorem wConstruct_eval :
    constructRoute wCfg (fun _ _ => 1) 0 = some ([0, 1, 0], 2, 1) := rfl

theorem wAnts_eval :
    runAnts wCfg initState.P 1
      ⟨[], [], initState.best, initState.bestDist, initState.k⟩
      = some wAcc := rfl

theorem wIter_eval : runIteration wCfg 1 initState = some wSt1 :=
  runIteration_eq_some wAnts_eval

theorem wColony_eval : runColony wCfg 1 1 initState = some wSt1 := by
  rw [runColony_succ_some wIter_eval]
  rfl

theorem cexAnts1_eval :
    runAnts cexCfg initState.P 2
      ⟨[], [], initState.best, initState.bestDist, initState.k⟩
      = some ⟨[[0, 1, 2, 3, 0], [0, 2, 1, 3, 0]], [4, 4],
              some [0, 1, 2, 3, 0], some 4, 12⟩ := rfl

theorem cexIter1_eval : runIteration cexCfg 2 initState = some cexSt1 :=
  runIteration_eq_some cexAnts1_eval

theorem cexColony1_eval : runColony cexCfg 2 1 initState = some cexSt1 := by
  rw [runColony_succ_some cexIter1_eval]
  rfl

theorem cexAnts2_eval :
    runAnts cexCfg cexSt1.P 2
      ⟨[], [], cexSt1.best, cexSt1.bestDist, cexSt1.k⟩ = none := rfl

theorem cexIter2_eval : runIteration cexCfg 2 cexSt1 = none :=
  runIteration_eq_none cexAnts2_eval

theorem cexColony_eval : runColony cexCfg 2 2 initState = none := by
  rw [runColony_succ_some cexIter1_eval, runColony_succ_none cexIter2_eval]

theorem cexSolve_eval : solveACO cexCfg 2 2 = none := by
  rw [solveACO, cexColony_eval]
  rfl

theorem cexStep1_eval :
    antStep cexCfg cexSt1.P ⟨[0], {0}, 0, 12⟩
      = some ⟨[1, 0], insert 1 {0}, 1, 14⟩ := rfl

theorem cexStep2_eval :
    antStep cexCfg cexSt1.P ⟨[1, 0], insert 1 {0}, 1, 14⟩
      = some ⟨[3, 1, 0], insert 3 (insert 1 {0}), 2, 16⟩ := rfl

theorem cexScores_eval :
    (scores cexCfg cexSt1.P (insert 3 (insert 1 {0}))
      (([3, 1, 0] : List ℕ).headI)).sum = 0 := rfl

/-! ### The claims -/

/-- C1 (counterexample): the claim that every valid input (at least two
locations, start in range, positive distances between distinct locations,
uniform draws in `[0,1)`) yields a returned tour fails as stated: with
`rho = 1` and `q0 = 0`, both inside the parameter ranges the spec documents,
the run `solveACO cexCfg 2 2` reaches a step whose score total is zero and
never returns a tour (in the Python source the probabilities become NaN and
the while loop never terminates; the embedding reports failure). -/
theorem C1_counterexample :
    Valid cexCfg ∧ 0 ≤ cexCfg.rho ∧ cexCfg.rho ≤ 1 ∧ 0 ≤ cexCfg.q0 ∧
      cexCfg.q0 ≤ 1 ∧ solveACO cexCfg 2 2 = none := by
  refine ⟨cexCfg_valid, ?_, ?_, ?_, ?_, cexSolve_eval⟩
  · show (0 : ℚ) ≤ 1
    norm_num
  · show (1 : ℚ) ≤ 1
    norm_num
  · show (0 : ℚ) ≤ 0
    norm_num
  · show (0 : ℚ) ≤ 1
    norm_num

/-- C1 (amended): for every valid input, provided additionally that
`rho ∈ [0,1)` and that at least one ant runs for at least one iteration,
`solve_aco` returns a tour of length `N+1` that starts and ends at the start
index and visits every other index exactly once. -/
theorem C1_amended (cfg : Cfg) (nA nI : ℕ) (hv : Valid cfg)
    (hr0 : 0 ≤ cfg.rho) (hr1 : cfg.rho < 1) (hA : 1 ≤ nA) (hI : 1 ≤ nI) :
    ∃ t, solveACO cfg nA nI = some (some t) ∧ ValidTour cfg t := by
  have hcol : ColInv cfg initState :=
    ⟨fun i j => one_pos, fun _ => rfl, fun b hb => Option.noConfusion hb⟩
  obtain ⟨st', h1, hc', _, hsome⟩ := runColony_total hv hr1 nI initState hcol
  obtain ⟨b, hb⟩ := hsome hI hA
  obtain ⟨t, ht, hvt⟩ := hc'.2.2 b hb
  refine ⟨t, ?_, hvt⟩
  rw [solveACO, h1, Option.map_some', ht]

/-- C1 (witness): the amended theorem at a concrete two-location input. -/
theorem C1_witness :
    ∃ t, solveACO wCfg 1 1 = some (some t) ∧ ValidTour wCfg t :=
  C1_amended wCfg 1 1 wCfg_valid
    (by show (0 : ℚ) ≤ 1 / 2; norm_num)
    (by show (1 : ℚ) / 2 < 1; norm_num)
    (by norm_num) (by norm_num)

/-- C2: the best-known pair starts as (no tour, `+inf`); the comparison
against the best distance is the strict `d < best` (with everything beating
`+inf`); the tracked best distance is monotonically non-increasing along the
ants of an iteration and along whole runs; and one ant replaces the best
pair exactly when its tour's distance strictly beats the current best. -/
theorem C2_best_tracking :
    (initState.best = none ∧ initState.bestDist = none) ∧
    (∀ (d : ℚ) (bd : Option ℚ), ltBest d bd = true ↔
      bd = none ∨ ∃ b, bd = some b ∧ d < b) ∧
    (∀ (cfg : Cfg) (P : Mat) (m : ℕ) (acc acc' : IterAcc),
      runAnts cfg P m acc = some acc' → dLE acc'.bestDist acc.bestDist) ∧
    (∀ (cfg : Cfg) (nA m : ℕ) (st st' : ColonyState),
      runColony cfg nA m st = some st' → dLE st'.bestDist st.bestDist) ∧
    (∀ (cfg : Cfg) (P : Mat) (acc acc' : IterAcc) (t : List ℕ) (d : ℚ)
      (k' : ℕ), constructRoute cfg P acc.k = some (t, d, k') →
      runAnts cfg P 1 acc = some acc' →
      (acc'.best, acc'.bestDist) =
        if ltBest d acc.bestDist then (some t, some d)
        else (acc.best, acc.bestDist)) := by
  refine ⟨⟨rfl, rfl⟩, ltBest_true_iff,
    fun cfg P m acc acc' h => runAnts_dLE h,
    fun cfg nA m st st' h => runColony_dLE h, ?_⟩
  intro cfg P acc acc' t d k' hc h
  rw [runAnts_cont hc] at h
  cases Option.some.inj h
  show (if ltBest d acc.bestDist then some t else acc.best,
        if ltBest d acc.bestDist then some d else acc.bestDist) = _
  split_ifs <;> rfl

/-- C2 (witness): monotonicity applied to a concrete one-ant run starting
from the initial `+inf` best distance. -/
theorem C2_witness : dLE wAcc.bestDist (none : Option ℚ) :=
  C2_best_tracking.2.2.1 wCfg initState.P 1
    ⟨[], [], initState.best, initState.bestDist, initState.k⟩ wAcc wAnts_eval

/-- C3: the claim says route construction applies a defensive policy (such
as an epsilon substitute) so the desirability score stays finite when the
distance between two distinct locations is zero.  The code has no such
policy: lines 80-82 compute `distance ** (-beta)` directly, which for the
distinct locations 0 and 1 at distance 0 is numpy's `0.0 ** -2 = inf`
(modelled as `none`), and the whole construction step fails rather than
producing a finite score. -/
theorem C3_no_epsilon_policy :
    zCfg.D 0 1 = 0 ∧ (0 : ℕ) ≠ 1 ∧ zCfg.beta ≠ 0 ∧
      desirability zCfg (fun _ _ => 1) 0 1 = none ∧
      antStep zCfg (fun _ _ => 1) ⟨[0], {0}, 0, 0⟩ = none :=
  ⟨rfl, by norm_num, by norm_num [zCfg], rfl, rfl⟩

/-- C4 (counterexample): the claim that the score total is strictly
positive at every reachable step fails as stated: after one full iteration
of the degenerate run (`rho = 1`, `q0 = 0`, both in the documented ranges),
the first ant of the next iteration reaches location 3 with visited set
`{0, 1, 3}` - a non-full visited set - and the sum of the desirability
scores there is `0` (the remaining candidate 2 has zero pheromone). -/
theorem C4_counterexample :
    Valid cexCfg ∧ 0 ≤ cexCfg.rho ∧ cexCfg.rho ≤ 1 ∧
    runColony cexCfg 2 1 initState = some cexSt1 ∧
    antStep cexCfg cexSt1.P ⟨[cexCfg.start], {cexCfg.start}, 0, cexSt1.k⟩
      = some ⟨[1, 0], insert 1 {0}, 1, 14⟩ ∧
    antStep cexCfg cexSt1.P ⟨[1, 0], insert 1 {0}, 1, 14⟩
      = some ⟨[3, 1, 0], insert 3 (insert 1 {0}), 2, 16⟩ ∧
    (insert 3 (insert 1 ({0} : Finset ℕ))).card < cexCfg.n ∧
    (scores cexCfg cexSt1.P (insert 3 (insert 1 {0}))
      (([3, 1, 0] : List ℕ).headI)).sum = 0 := by
  refine ⟨cexCfg_valid, ?_, ?_, cexColony1_eval, cexStep1_eval, cexStep2_eval,
    ?_, cexScores_eval⟩
  · show (0 : ℚ) ≤ 1
    norm_num
  · show (1 : ℚ) ≤ 1
    norm_num
  · show (3 : ℕ) < 4
    norm_num

/-- C4 (amended): provided `rho ∈ [0,1)`, every pheromone matrix reachable
from the uniform initial one stays strictly positive in every cell, and for
every strictly positive pheromone matrix and every route-construction state
with a non-full visited set the sum of the desirability scores is strictly
positive, so normalizing never divides by zero. -/
theorem C4_amended (cfg : Cfg) (nA : ℕ) (hv : Valid cfg) (hr0 : 0 ≤ cfg.rho)
    (hr1 : cfg.rho < 1) :
    (∀ (m : ℕ) (st' : ColonyState), runColony cfg nA m initState = some st' →
      ∀ i j, 0 < st'.P i j) ∧
    (∀ (P : Mat) (s : AntState), (∀ i j, 0 < P i j) → AntInv cfg s →
      s.visited.card < cfg.n →
      0 < (scores cfg P s.visited s.rev.headI).sum) := by
  constructor
  · intro m st' h i j
    have hcol : ColInv cfg initState :=
      ⟨fun i j => one_pos, fun _ => rfl, fun b hb => Option.noConfusion hb⟩
    obtain ⟨st'', h2, hc'', _, _⟩ := runColony_total hv hr1 m initState hcol
    rw [h] at h2
    cases Option.some.inj h2
    exact hc''.1 i j
  · intro P s hP hInv hcard
    exact scores_sum_pos hv hInv hP hcard

/-- C4 (witness): the amended score-sum positivity at the initial state of
a concrete two-location input. -/
theorem C4_witness :
    0 < (scores wCfg (fun _ _ => 1)
      ((⟨[0], {0}, 0, 0⟩ : AntState).visited)
      ((⟨[0], {0}, 0, 0⟩ : AntState).rev.headI)).sum :=
  (C4_amended wCfg 1 wCfg_valid
      (by show (0 : ℚ) ≤ 1 / 2; norm_num)
      (by show (1 : ℚ) / 2 < 1; norm_num)).2
    (fun _ _ => 1) ⟨[0], {0}, 0, 0⟩ (fun i j => one_pos) wInv0 (by decide)

/-- C5: when all `n_ants` routes of an iteration have been constructed
against the iteration's frozen pheromone snapshot, the new pheromone matrix
is obtained from the old one alone: every cell is multiplied by `1 - rho`,
and then, for every directed edge `(i, j)`, each ant's tour adds
`1 / tour_distance` once per traversal of that directed edge (the closing
edge included, the reverse cell untouched). -/
theorem C5_pheromone_update (cfg : Cfg) (nA : ℕ) (st : ColonyState)
    (acc : IterAcc)
    (h : runAnts cfg st.P nA ⟨[], [], st.best, st.bestDist, st.k⟩ = some acc) :
    ∃ st', runIteration cfg nA st = some st' ∧ st'.best = acc.best ∧
      st'.bestDist = acc.bestDist ∧
      ∀ i j, st'.P i j = st.P i j * (1 - cfg.rho) +
        depositSum acc.routes acc.dists i j := by
  refine ⟨_, runIteration_eq_some h, rfl, rfl, ?_⟩
  intro i j
  show depositAll (evaporate cfg st.P) acc.routes acc.dists i j = _
  rw [depositAll_apply]
  rfl

/-- C5 (witness): the pheromone update equation of a concrete one-ant
iteration, checked at the cell `(0, 1)`. -/
theorem C5_witness :
    runIteration wCfg 1 initState = some wSt1 ∧
    wSt1.best = wAcc.best ∧ wSt1.bestDist = wAcc.bestDist ∧
    wSt1.P 0 1 = initState.P 0 1 * (1 - wCfg.rho) +
      depositSum wAcc.routes wAcc.dists 0 1 := by
  obtain ⟨st', h1, h2, h3, h4⟩ :=
    C5_pheromone_update wCfg 1 initState wAcc wAnts_eval
  rw [wIter_eval] at h1
  cases Option.some.inj h1
  exact ⟨wIter_eval, h2, h3, h4 0 1⟩

/-- C6: at each route-construction step a uniform draw `r` is consumed; if
`r < q0` the candidate with the first-occurring maximal normalized
probability is appended (ties broken by the first index attaining the
maximum), and otherwise one further uniform draw `u` is consumed and the
candidate is sampled from the normalized distribution by cumulative-weight
bisection of `u * total`. -/
theorem C6_choice_rule (cfg : Cfg) (P : Mat) (s : AntState) (hv : Valid cfg)
    (hInv : AntInv cfg s) (hP : ∀ i j, 0 < P i j)
    (hcard : s.visited.card < cfg.n) :
    (cfg.g s.k < cfg.q0 →
      antStep cfg P s
        = some (push cfg s (idxOfMax (nprobs cfg P s)) (s.k + 1)) ∧
      idxOfMax (nprobs cfg P s) < cfg.n ∧
      (∀ j, j < cfg.n → (nprobs cfg P s).getD j 0
        ≤ (nprobs cfg P s).getD (idxOfMax (nprobs cfg P s)) 0) ∧
      (∀ j, j < idxOfMax (nprobs cfg P s) → (nprobs cfg P s).getD j 0
        < (nprobs cfg P s).getD (idxOfMax (nprobs cfg P s)) 0)) ∧
    (¬ cfg.g s.k < cfg.q0 →
      antStep cfg P s = some (push cfg s
        (pyChoices (nprobs cfg P s) (cfg.g (s.k + 1))) (s.k + 2)) ∧
      pyChoices (nprobs cfg P s) (cfg.g (s.k + 1)) < cfg.n ∧
      psum (nprobs cfg P s) (pyChoices (nprobs cfg P s) (cfg.g (s.k + 1)))
        ≤ cfg.g (s.k + 1) * (nprobs cfg P s).sum ∧
      cfg.g (s.k + 1) * (nprobs cfg P s).sum
        < psum (nprobs cfg P s)
            (pyChoices (nprobs cfg P s) (cfg.g (s.k + 1)) + 1)) := by
  have hT := scores_sum_pos hv hInv hP hcard
  have hOK : stepOK cfg P s = true := stepOK_true hv hInv
  have hne : nprobs cfg P s ≠ [] := nprobs_ne_nil (by have := hv.1; omega)
  constructor
  · intro hr
    refine ⟨antStep_eq_exploit hOK hT.ne' hr, ?_, ?_, ?_⟩
    · have h1 := idxOfMax_lt hne
      rwa [nprobs_length] at h1
    · intro j hj
      exact getD_le_idxOfMax hne (by rw [nprobs_length]; exact hj)
    · intro j hj
      have hjlen : j < (nprobs cfg P s).length :=
        lt_trans hj (idxOfMax_lt hne)
      have h2 : (nprobs cfg P s).getD j 0 ≠ listMax (nprobs cfg P s) :=
        idxOfMax_first hj
      rw [getD_idxOfMax hne]
      exact lt_of_le_of_ne (le_listMax (getD_mem_of_lt hjlen)) h2
  · intro hr
    have hsum1 := nprobs_sum hT.ne'
    have hu := hv.2.2.2 (s.k + 1)
    have hx0 : 0 ≤ cfg.g (s.k + 1) * (nprobs cfg P s).sum := by
      rw [hsum1]
      simpa using hu.1
    have hxlt : cfg.g (s.k + 1) * (nprobs cfg P s).sum
        < (nprobs cfg P s).sum := by
      rw [hsum1]
      simpa using hu.2
    obtain ⟨w1, _, w3, w4⟩ := weightedChoice_spec (nprobs cfg P s)
      (cfg.g (s.k + 1) * (nprobs cfg P s).sum)
      (nprobs_nonneg hv hInv (fun i j => (hP i j).le) hT) hx0 hxlt
    rw [nprobs_length] at w1
    exact ⟨antStep_eq_explore hOK hT.ne' hr, w1, w3, w4⟩

/-- C6 (witness): the exploitation branch at the initial state of a
concrete two-location input (`r = 0 < q0 = 9/10`). -/
theorem C6_witness :
    antStep wCfg (fun _ _ => 1) ⟨[0], {0}, 0, 0⟩
      = some (push wCfg ⟨[0], {0}, 0, 0⟩
          (idxOfMax (nprobs wCfg (fun _ _ => 1) ⟨[0], {0}, 0, 0⟩)) 1) ∧
    idxOfMax (nprobs wCfg (fun _ _ => 1) ⟨[0], {0}, 0, 0⟩) < wCfg.n := by
  have h := (C6_choice_rule wCfg (fun _ _ => 1) ⟨[0], {0}, 0, 0⟩ wCfg_valid
    wInv0 (fun i j => one_pos) (by decide)).1
    (by show (0 : ℚ) < 9 / 10; norm_num)
  exact ⟨h.1, h.2.1⟩

/-- C7: for every constructed route, the total distance accumulated edge by
edge (including the closing edge back to the start) equals the sum of the
distance-matrix entries over the closed tour's consecutive index pairs, for
arbitrary inputs. -/
theorem C7_distance_consistent (cfg : Cfg) (P : Mat) (k : ℕ) (t : List ℕ)
    (d : ℚ) (k' : ℕ) (h : constructRoute cfg P k = some (t, d, k')) :
    d = tourDist cfg.D t :=
  constructRoute_dist h

/-- C7 (witness): the accumulated distance `2` of the concrete two-location
route equals the recomputed tour distance. -/
theorem C7_witness : (2 : ℚ) = tourDist wCfg.D [0, 1, 0] :=
  C7_distance_consistent wCfg (fun _ _ => 1) 0 [0, 1, 0] 2 1 wConstruct_eval

/-- C8: for every two-location input with a valid start index, symmetric
positive distance and `rho` in the documented range, every constructed route
is `[start, other, start]` with accumulated distance
`2 * D[start][other]`, and hence (with at least one ant and one iteration)
the run's best pair - and the returned tour - is exactly that route. -/
theorem C8_two_locations (cfg : Cfg) (nA nI : ℕ) (hv : Valid cfg)
    (h2 : cfg.n = 2)
    (hsym : cfg.D cfg.start (1 - cfg.start) = cfg.D (1 - cfg.start) cfg.start)
    (hrho : cfg.rho ≤ 1) (hA : 1 ≤ nA) (hI : 1 ≤ nI) :
    (∀ (P : Mat) (k : ℕ), (∀ i j, 0 ≤ P i j) →
      0 < P cfg.start (1 - cfg.start) →
      ∃ k', constructRoute cfg P k =
        some ([cfg.start, 1 - cfg.start, cfg.start],
          2 * cfg.D cfg.start (1 - cfg.start), k')) ∧
    ∃ st', runColony cfg nA nI initState = some st' ∧
      st'.best = some [cfg.start, 1 - cfg.start, cfg.start] ∧
      st'.bestDist = some (2 * cfg.D cfg.start (1 - cfg.start)) ∧
      solveACO cfg nA nI = some (some [cfg.start, 1 - cfg.start, cfg.start]) := by
  have htd : twoDist cfg = 2 * cfg.D cfg.start (1 - cfg.start) := by
    rw [twoDist, ← hsym]
    ring
  constructor
  · intro P k hP0 hPe
    obtain ⟨k', hk⟩ := construct2 hv h2 hP0 hPe k
    refine ⟨k', ?_⟩
    rw [hk, twoTour, htd]
  · have hinv0 : TwoInv cfg initState :=
      ⟨fun i j => le_of_lt one_pos, one_pos, Or.inl ⟨rfl, rfl⟩⟩
    obtain ⟨st', h1, _, hone⟩ := runColony2 hv h2 hrho hA nI initState hinv0
    obtain ⟨hb, hd⟩ := hone hI
    refine ⟨st', h1, by rw [hb, twoTour], by rw [hd, htd], ?_⟩
    rw [solveACO, h1, Option.map_some', hb, twoTour]

/-- C8 (witness): the two-location theorem at a concrete input with
distance 3, start index 1 and full evaporation `rho = 1`. -/
theorem C8_witness :
    ∃ st', runColony wCfg8 1 1 initState = some st' ∧
      st'.best = some [1, 0, 1] ∧ st'.bestDist = some 6 ∧
      solveACO wCfg8 1 1 = some (some [1, 0, 1]) := by
  have h := (C8_two_locations wCfg8 1 1 wCfg8_valid rfl rfl
    (by show (1 : ℚ) ≤ 1; norm_num) (by norm_num) (by norm_num)).2
  obtain ⟨st', h1, h2, h3, h4⟩ := h
  refine ⟨st', h1, ?_, ?_, ?_⟩
  · rw [h2]
    rfl
  · rw [h3]
    norm_num [wCfg8]
  · rw [h4]
    rfl

/-- C9: the pheromone matrix never has a negative cell for `rho ∈ [0,1]`:
it is initialized to all ones, evaporation multiplies by the nonnegative
`1 - rho`, deposits add the positive amounts `1 / tour_distance` (every
constructed tour of a valid input has positive distance), and consequently
every state reached by a whole run from the initial matrix is nonnegative
in every cell. -/
theorem C9_nonneg_pheromone :
    (∀ i j, initState.P i j = 1) ∧
    (∀ (cfg : Cfg) (P : Mat), cfg.rho ≤ 1 → (∀ i j, 0 ≤ P i j) →
      ∀ i j, 0 ≤ evaporate cfg P i j) ∧
    (∀ (P : Mat) (ts : List (List ℕ)) (ds : List ℚ), (∀ i j, 0 ≤ P i j) →
      (∀ d ∈ ds, 0 < d) → ∀ i j, 0 ≤ depositAll P ts ds i j) ∧
    (∀ (cfg : Cfg) (P : Mat) (m : ℕ) (acc acc' : IterAcc), Valid cfg →
      (∀ i j, 0 ≤ P i j) → runAnts cfg P m acc = some acc' →
      (∀ d ∈ acc.dists, 0 < d) → ∀ d ∈ acc'.dists, 0 < d) ∧
    (∀ (cfg : Cfg) (nA m : ℕ) (st' : ColonyState), Valid cfg →
      0 ≤ cfg.rho → cfg.rho ≤ 1 → runColony cfg nA m initState = some st' →
      ∀ i j, 0 ≤ st'.P i j) := by
  refine ⟨fun i j => rfl, fun cfg P h1 h2 => evaporate_nonneg h1 h2,
    fun P ts ds h1 h2 => depositAll_nonneg ts ds P h1 h2,
    fun cfg P m acc acc' hv hP0 h hd => runAnts_some_dists hv hP0 h hd, ?_⟩
  intro cfg nA m st' hv _ hrho h
  exact runColony_some_nonneg hv hrho h fun i j => le_of_lt one_pos

/-- C9 (witness): nonnegativity of the pheromone matrix after one concrete
iteration, at the diagonal cell `(0, 0)` (which only evaporates). -/
theorem C9_witness :
    runColony wCfg 1 1 initState = some wSt1 ∧ 0 ≤ wSt1.P 0 0 :=
  ⟨wColony_eval,
    C9_nonneg_pheromone.2.2.2.2 wCfg 1 1 wSt1 wCfg_valid
      (by show (0 : ℚ) ≤ 1 / 2; norm_num)
      (by show (1 : ℚ) / 2 ≤ 1; norm_num) wColony_eval 0 0⟩

/-- C10: when `n_ants = 0` or `n_iterations = 0`, no route is ever
constructed, the best route keeps its initial `None`, and `solve_aco`
returns `None` instead of a tour. -/
theorem C10_no_ants_returns_none (cfg : Cfg) (nA nI : ℕ)
    (h : nA = 0 ∨ nI = 0) : solveACO cfg nA nI = some none := by
  rcases h with h | h
  · subst h
    obtain ⟨st', h1, h2, _⟩ := runColony_no_ants nI initState
    rw [solveACO, h1, Option.map_some', h2]
    rfl
  · subst h
    rfl

/-- C10 (witness): a zero-ant run over three iterations returns `None`. -/
theorem C10_witness : solveACO wCfg 0 3 = some none :=
  C10_no_ants_returns_none wCfg 0 3 (Or.inl rfl)

end ACO
